import Mathlib

/-!
Verification of the "Resilient Generation Pipeline" of this repository
(a Flask backend in `app.py`).  The pipeline functions are embedded
shallowly over `List Char` (Python `str` values):

* `clean_text`   — `re.sub(r'\s+', ' ', text)`, then `re.sub(r'[\x00-\x1F]+', '', text)`,
  then `str.strip()`;
* `chunk_text`   — the `while start < len(text)` slicing loop;
* `safe_json`    — falsy check, `clean_text`, `json.loads`, then the
  `re.search(r"\{.*\}", text, re.S | re.M)` brace-scan retry;
* `gemini_text`  — Groq first (exception falls through), then Gemini, else `""`;
* `analyze_cv` / `analyze_cv_quality` — the chunked aggregation routes.

`json.loads` is modelled by a fuel-based recursive-descent parser
(`parseValue`) over a JSON subset: integers (no floats, no `\u` escapes);
Python dict semantics (truthiness, `in`, `[]`, `.get`, `sum`, `join`,
`extend`) are modelled explicitly where a route uses them.
-/

namespace VCoach

set_option maxRecDepth 8192

/-- Whitespace as matched by Python regex `\s` / `str.isspace` on `str`
(ASCII whitespace, the 0x1C–0x1F separators, NEL, NBSP and the Unicode
space characters). -/
def isPyWs (c : Char) : Bool :=
  c.toNat = 0x20 ∨ (0x09 ≤ c.toNat ∧ c.toNat ≤ 0x0d) ∨
  (0x1c ≤ c.toNat ∧ c.toNat ≤ 0x1f) ∨
  c.toNat = 0x85 ∨ c.toNat = 0xa0 ∨ c.toNat = 0x1680 ∨
  (0x2000 ≤ c.toNat ∧ c.toNat ≤ 0x200a) ∨
  c.toNat = 0x2028 ∨ c.toNat = 0x2029 ∨ c.toNat = 0x202f ∨
  c.toNat = 0x205f ∨ c.toNat = 0x3000

/-- ASCII control characters, the class `[\x00-\x1F]` removed by `clean_text`. -/
def isCtrl (c : Char) : Bool := c.toNat ≤ 0x1f

/-- First half of `re.sub(r'\s+', ' ', text)`: every whitespace character
becomes a plain space (a maximal whitespace run becomes a run of spaces). -/
def wsToSpace (s : List Char) : List Char :=
  s.map (fun c => if isPyWs c then ' ' else c)

/-- Second half of `re.sub(r'\s+', ' ', text)`: collapse each run of
spaces to a single space. -/
def squeezeSpaces : List Char → List Char
  | [] => []
  | [c] => [c]
  | a :: b :: r =>
    if a = ' ' ∧ b = ' ' then squeezeSpaces (b :: r)
    else a :: squeezeSpaces (b :: r)

/-- `re.sub(r'\s+', ' ', text)`: each maximal whitespace run becomes one space. -/
def collapseWs (s : List Char) : List Char := squeezeSpaces (wsToSpace s)

/-- `re.sub(r'[\x00-\x1F]+', '', text)`. -/
def removeCtrl (s : List Char) : List Char := s.filter (fun c => ¬ isCtrl c)

/-- Python `str.strip()`: drop whitespace from both ends. -/
def pyStrip (s : List Char) : List Char :=
  ((s.dropWhile isPyWs).reverse.dropWhile isPyWs).reverse

/-- `clean_text` from `app.py`: collapse whitespace runs to one space,
remove ASCII control characters, strip. -/
def clean_text (s : List Char) : List Char :=
  pyStrip (removeCtrl (collapseWs s))

/-- Fuel-limited body of `chunk_text`.  The source loops
`while start < len(text)` taking slices of `chunk_size`; with
`chunk_size = 0` and non-empty text the Python loop never terminates, so
the model is faithful only for `0 < size` (every call site passes 3000). -/
def chunkTextF : Nat → List Char → Nat → List (List Char)
  | 0, _, _ => []
  | _, [], _ => []
  | fuel + 1, text, size => text.take size :: chunkTextF fuel (text.drop size) size

/-- `chunk_text` from `app.py` (faithful for `0 < size`, see `chunkTextF`). -/
def chunk_text (text : List Char) (size : Nat) : List (List Char) :=
  chunkTextF text.length text size

/-! ## JSON values, a model of `json.loads` -/

/-- Structured values produced by `json.loads`.  Numbers are modelled as
integers (the routes only ever handle integer scores; floats are outside
the model).  Objects keep their key/value pairs in textual order. -/
inductive JsonValue where
  | null
  | bool (b : Bool)
  | num (n : Int)
  | str (s : List Char)
  | arr (elems : List JsonValue)
  | obj (fields : List (List Char × JsonValue))
deriving Repr

/-- JSON escaping of one string character (the canonical renderer escapes
exactly the two characters that must be escaped). -/
def escChar (c : Char) : List Char :=
  if c = '"' then ['\\', '"'] else if c = '\\' then ['\\', '\\'] else [c]

/-- Render a JSON string literal. -/
def renderStr (s : List Char) : List Char :=
  '"' :: (s.map escChar).flatten ++ ['"']

/-- Decimal digit character. -/
def digitChar (n : Nat) : Char := Char.ofNat (48 + n)

/-- Fuel-based most-significant-first decimal rendering. -/
def natToCharsAux : Nat → Nat → List Char → List Char
  | 0, _, acc => acc
  | fuel + 1, n, acc =>
    if n < 10 then digitChar n :: acc
    else natToCharsAux fuel (n / 10) (digitChar (n % 10) :: acc)

/-- Canonical decimal rendering of a natural number. -/
def natToChars (n : Nat) : List Char := natToCharsAux (n + 1) n []

/-- Canonical decimal rendering of an integer. -/
def intToChars (n : Int) : List Char :=
  if n < 0 then '-' :: natToChars n.natAbs else natToChars n.natAbs

mutual
/-- Canonical compact rendering of a `JsonValue` (no whitespace between
tokens; only `"` and `\` escaped inside strings). -/
def render : JsonValue → List Char
  | .null => ("null").toList
  | .bool true => ("true").toList
  | .bool false => ("false").toList
  | .num n => intToChars n
  | .str s => renderStr s
  | .arr xs => '[' :: (renderElems xs ++ [']'])
  | .obj kvs => '{' :: (renderFields kvs ++ ['}'])

/-- Comma-separated rendering of array elements. -/
def renderElems : List JsonValue → List Char
  | [] => []
  | [x] => render x
  | x :: y :: r => render x ++ ',' :: renderElems (y :: r)

/-- Comma-separated rendering of object members. -/
def renderFields : List (List Char × JsonValue) → List Char
  | [] => []
  | [kv] => renderStr kv.1 ++ ':' :: render kv.2
  | kv :: p :: r => renderStr kv.1 ++ ':' :: render kv.2 ++ ',' :: renderFields (p :: r)
end

/-- Whitespace accepted between JSON tokens by `json.loads`. -/
def isJsonWs (c : Char) : Bool :=
  c.toNat = 0x20 ∨ c.toNat = 0x09 ∨ c.toNat = 0x0a ∨ c.toNat = 0x0d

/-- Skip inter-token whitespace. -/
def skipWs (s : List Char) : List Char := s.dropWhile isJsonWs

/-- ASCII decimal digit test. -/
def isDigit (c : Char) : Bool := 48 ≤ c.toNat ∧ c.toNat ≤ 57

/-- Value of a decimal digit character. -/
def digitVal (c : Char) : Nat := c.toNat - 48

/-- Decode one character escape of a JSON string literal (the `\u` escape
is outside the modelled subset). -/
def escDecode (e : Char) : Option Char :=
  if e = '"' then some '"'
  else if e = '\\' then some '\\'
  else if e = '/' then some '/'
  else if e = 'n' then some '\n'
  else if e = 't' then some '\t'
  else if e = 'r' then some '\r'
  else if e = 'b' then some (Char.ofNat 8)
  else if e = 'f' then some (Char.ofNat 12)
  else none

/-- Parse the body of a JSON string literal (after the opening quote) up
to its closing quote, decoding the simple escapes.  Like `json.loads` in
its default strict mode, raw control characters are rejected. -/
def parseStrBody : List Char → Option (List Char × List Char)
  | [] => none
  | '"' :: rest => some ([], rest)
  | '\\' :: e :: rest =>
    (escDecode e).bind fun c => (parseStrBody rest).map fun r => (c :: r.1, r.2)
  | c :: rest =>
    if c.toNat < 0x20 then none
    else (parseStrBody rest).map fun r => (c :: r.1, r.2)

/-- Accumulate a run of decimal digits. -/
def parseDigitsAux : List Char → Nat → Nat × List Char
  | [], acc => (acc, [])
  | c :: rest, acc =>
    if isDigit c then parseDigitsAux rest (acc * 10 + digitVal c)
    else (acc, c :: rest)

/-- Parse a JSON natural-number literal (no leading zeros). -/
def parseNat (s : List Char) : Option (Nat × List Char) :=
  match s with
  | c :: rest =>
    if c = '0' then
      match rest with
      | d :: _ => if isDigit d then none else some (0, rest)
      | [] => some (0, [])
    else if isDigit c then some (parseDigitsAux rest (digitVal c))
    else none
  | [] => none

/-- Parse a JSON number.  A fraction or exponent suffix is outside the
modelled integer subset and fails. -/
def parseNumber (s : List Char) : Option (JsonValue × List Char) :=
  match s with
  | '-' :: rest =>
    (parseNat rest).bind fun nr =>
      match nr.2 with
      | c :: _ =>
        if c = '.' ∨ c = 'e' ∨ c = 'E' then none
        else some (.num (-(nr.1 : Int)), nr.2)
      | [] => some (.num (-(nr.1 : Int)), [])
  | _ =>
    (parseNat s).bind fun nr =>
      match nr.2 with
      | c :: _ =>
        if c = '.' ∨ c = 'e' ∨ c = 'E' then none
        else some (.num (nr.1 : Int), nr.2)
      | [] => some (.num (nr.1 : Int), [])

mutual
/-- Recursive-descent JSON value parser (fuel-based; every recursive call
spends one unit of fuel). -/
def parseValue : Nat → List Char → Option (JsonValue × List Char)
  | 0, _ => none
  | fuel + 1, s =>
    match skipWs s with
    | '{' :: rest => (parseObjBody fuel rest).map (fun r => (.obj r.1, r.2))
    | '[' :: rest => (parseArrBody fuel rest).map (fun r => (.arr r.1, r.2))
    | '"' :: rest => (parseStrBody rest).map (fun r => (.str r.1, r.2))
    | 't' :: 'r' :: 'u' :: 'e' :: rest => some (.bool true, rest)
    | 'f' :: 'a' :: 'l' :: 's' :: 'e' :: rest => some (.bool false, rest)
    | 'n' :: 'u' :: 'l' :: 'l' :: rest => some (.null, rest)
    | rest => parseNumber rest

/-- After `[`: an empty array or its first element. -/
def parseArrBody : Nat → List Char → Option (List JsonValue × List Char)
  | 0, _ => none
  | fuel + 1, s =>
    match skipWs s with
    | ']' :: rest => some ([], rest)
    | s' => (parseValue fuel s').bind fun vr => parseArrRest fuel vr.1 vr.2

/-- After one array element: close the array or continue after a comma. -/
def parseArrRest : Nat → JsonValue → List Char → Option (List JsonValue × List Char)
  | 0, _, _ => none
  | fuel + 1, v, s =>
    match skipWs s with
    | ']' :: rest => some ([v], rest)
    | ',' :: rest =>
      (parseValue fuel rest).bind fun wr =>
        (parseArrRest fuel wr.1 wr.2).map (fun r => (v :: r.1, r.2))
    | _ => none

/-- After `{`: an empty object or its first member. -/
def parseObjBody : Nat → List Char → Option (List (List Char × JsonValue) × List Char)
  | 0, _ => none
  | fuel + 1, s =>
    match skipWs s with
    | '}' :: rest => some ([], rest)
    | s' => (parsePair fuel s').bind fun pr => parseObjRest fuel pr.1 pr.2

/-- After one object member: close the object or continue after a comma. -/
def parseObjRest : Nat → (List Char × JsonValue) → List Char →
    Option (List (List Char × JsonValue) × List Char)
  | 0, _, _ => none
  | fuel + 1, kv, s =>
    match skipWs s with
    | '}' :: rest => some ([kv], rest)
    | ',' :: rest =>
      (parsePair fuel rest).bind fun pr =>
        (parseObjRest fuel pr.1 pr.2).map (fun r => (kv :: r.1, r.2))
    | _ => none

/-- One `"key" : value` object member. -/
def parsePair : Nat → List Char → Option ((List Char × JsonValue) × List Char)
  | 0, _ => none
  | fuel + 1, s =>
    match skipWs s with
    | '"' :: rest =>
      (parseStrBody rest).bind fun kr =>
        match skipWs kr.2 with
        | ':' :: r2 => (parseValue fuel r2).map (fun vr => ((kr.1, vr.1), vr.2))
        | _ => none
    | _ => none
end

/-- Model of `json.loads`: parse one value, then require only whitespace
to remain.  The fuel `length + 1` is enough for any successful parse
(each recursive call consumes at least one input character first). -/
def json_loads (s : List Char) : Option JsonValue :=
  match parseValue (s.length + 1) s with
  | some (v, rest) => if skipWs rest = [] then some v else none
  | none => none

/-- Model of `re.search(r"\{.*\}", text, re.S | re.M)`: the greedy match
runs from the first `{` to the last `}` when that span is non-trivial. -/
def braceSpan (s : List Char) : Option (List Char) :=
  let s1 := s.dropWhile (fun c => c ≠ '{')
  let s2 := (s1.reverse.dropWhile (fun c => c ≠ '}')).reverse
  if s2.length ≤ 1 then none else some s2

/-- `safe_json` from `app.py`: falsy check, `clean_text`, a direct
`json.loads`, then one brace-scan retry; `None` on failure (the bare
`except` clauses mean no exception ever escapes). -/
def safe_json (s : List Char) : Option JsonValue :=
  if s = [] then none
  else
    let t := clean_text s
    match json_loads t with
    | some v => some v
    | none =>
      match braceSpan t with
      | some sub => json_loads sub
      | none => none

/-- Number of `json.loads` attempts `safe_json` makes on input `s`
(mirrors `safe_json` branch for branch). -/
def safe_json_attempts (s : List Char) : Nat :=
  if s = [] then 0
  else
    let t := clean_text s
    match json_loads t with
    | some _ => 1
    | none =>
      match braceSpan t with
      | some _ => 2
      | none => 1

/-- Shape test used to state that a value is (not) a JSON object. -/
def isObjV : JsonValue → Bool
  | .obj _ => true
  | _ => false

/-! ## Python semantics helpers (truthiness, `in`, `[]`, `.get`, `sum`,
`join`, `extend`) as used by the aggregation routes -/

/-- Python truthiness of a parsed JSON value (`not parsed_chunk`). -/
def jsonTruthy : JsonValue → Bool
  | .null => false
  | .bool b => b
  | .num n => n != 0
  | .str s => !s.isEmpty
  | .arr xs => !xs.isEmpty
  | .obj kvs => !kvs.isEmpty

/-- Does `needle` occur as a prefix of `hay`? -/
def subListAt : List Char → List Char → Bool
  | [], _ => true
  | _ :: _, [] => false
  | a :: as, b :: bs => a = b && subListAt as bs

/-- Python substring test `needle in hay`. -/
def hasSubList (needle : List Char) : List Char → Bool
  | [] => needle.isEmpty
  | b :: bs => subListAt needle (b :: bs) || hasSubList needle bs

/-- Python `key in value` on a parsed JSON value: dict key membership,
list element equality, substring test on strings; `TypeError` (modelled
as `Except.error`) on numbers, booleans and `None`. -/
def pyContains (key : List Char) (v : JsonValue) : Except Unit Bool :=
  match v with
  | .obj kvs => .ok (kvs.any (fun kv => decide (kv.1 = key)))
  | .arr xs =>
    .ok (xs.any (fun x => match x with | .str s => decide (s = key) | _ => false))
  | .str s => .ok (hasSubList key s)
  | _ => .error ()

/-- Python `value[key]` with a string key: dict lookup (the last
duplicate wins, as `json.loads` builds dicts); `KeyError`/`TypeError`
otherwise. -/
def pyIndex (v : JsonValue) (key : List Char) : Except Unit JsonValue :=
  match v with
  | .obj kvs =>
    match (kvs.filter (fun kv => decide (kv.1 = key))).getLast? with
    | some kv => .ok kv.2
    | none => .error ()
  | _ => .error ()

/-- Python `value.get(key, default)`: `AttributeError` on non-dicts. -/
def pyGet (v : JsonValue) (key : List Char) (dflt : JsonValue) : Except Unit JsonValue :=
  match v with
  | .obj kvs =>
    match (kvs.filter (fun kv => decide (kv.1 = key))).getLast? with
    | some kv => .ok kv.2
    | none => .ok dflt
  | _ => .error ()

/-- Python `sum(xs)` over parsed score values: ints add, bools count as
0/1, anything else raises `TypeError`. -/
def pySum : List JsonValue → Except Unit Int
  | [] => .ok 0
  | v :: rest =>
    match v with
    | .num n => (pySum rest).map (fun s => n + s)
    | .bool b => (pySum rest).map (fun s => (if b then 1 else 0) + s)
    | _ => .error ()

/-- All parts of a Python `str.join` argument must be strings
(`TypeError` otherwise). -/
def pyJoinParts : List JsonValue → Except Unit (List (List Char))
  | [] => .ok []
  | .str s :: rest => (pyJoinParts rest).map (fun r => s :: r)
  | _ :: _ => .error ()

/-- `sep.join(parts)`. -/
def joinWith (sep : List Char) : List (List Char) → List Char
  | [] => []
  | [x] => x
  | x :: y :: r => x ++ sep ++ joinWith sep (y :: r)

/-- Python `list.extend(v)` elementwise view: lists contribute their
elements, strings contribute their characters as one-character strings,
other values raise `TypeError`. -/
def pyExtendList (v : JsonValue) : Except Unit (List JsonValue) :=
  match v with
  | .arr xs => .ok xs
  | .str s => .ok (s.map (fun c => JsonValue.str [c]))
  | _ => .error ()

/-! ## Providers and the generation orchestrator -/

/-- Outcome of one provider invocation: returned text, or a raised
exception (always caught by the orchestrator). -/
inductive ProvOutcome where
  | ok (text : List Char)
  | raise

/-- The two provider slots of `app.py`; `none` models a missing or
failed-to-initialise client (`USE_GROQ and groq_client` / `gemini_client`).
A configured provider is a function from the prompt to an outcome. -/
structure Providers where
  groq : Option (List Char → ProvOutcome)
  gemini : Option (List Char → ProvOutcome)

/-- The Gemini half of `gemini_text` (reached when Groq is missing or
raised): return the stripped response text, `""` on error or no client. -/
def gemini_fallback (P : Providers) (prompt : List Char) : List Char :=
  match P.gemini with
  | some b => match b prompt with | .ok t => pyStrip t | .raise => []
  | none => []

/-- `gemini_text` from `app.py`: Groq first (returned text stripped); a
raised exception or a missing client falls through to Gemini; `""` when
both are exhausted.  The bare `except` blocks are modelled by matching on
the outcome, so no exception escapes by construction. -/
def gemini_text (P : Providers) (prompt : List Char) : List Char :=
  match P.groq with
  | some b =>
    match b prompt with
    | .ok t => pyStrip t
    | .raise => gemini_fallback P prompt
  | none => gemini_fallback P prompt

/-- `groq_text` from `app.py`: Groq only, `""` on a raised error or a
missing client. -/
def groq_text (P : Providers) (prompt : List Char) : List Char :=
  match P.groq with
  | some b => match b prompt with | .ok t => pyStrip t | .raise => []
  | none => []

/-- Whether `gemini_text` reaches (invokes) the second provider — mirrors
the control flow of `gemini_text`. -/
def gemini_invoked (P : Providers) (prompt : List Char) : Bool :=
  match P.groq with
  | some b =>
    match b prompt with
    | .ok _ => false
    | .raise => P.gemini.isSome
  | none => P.gemini.isSome

/-! ## The `/analyze-cv` aggregation route -/

/-- `itertools.zip_longest` with `fillvalue=""`. -/
def zipLongest : List (List Char) → List (List Char) → List (List Char × List Char)
  | [], bs => bs.map (fun b => ([], b))
  | a :: as, [] => (a, []) :: zipLongest as []
  | a :: as, b :: bs => (a, b) :: zipLongest as bs

/-- The key `"compatibility_percent"`. -/
def cpKey : List Char := ("compatibility_percent").toList

/-- The key `"feedback_markdown"`. -/
def fmKey : List Char := ("feedback_markdown").toList

/-- The neutral default feedback substituted for a failed chunk. -/
def defaultChunkFeedback : List Char :=
  ("Fragmentul CV-ului are relevanță parțială pentru cerințele acestui segment al jobului.").toList

/-- Text of the per-chunk prompt of `/analyze-cv` before the CV fragment. -/
def promptChunkPre : List Char :=
  ("\nEști un recrutor profesionist cu experiență umană + AI. \nAnalizează compatibilitatea dintre CV și cerințele postului. \nOferă procentaj realist (0-100) și feedback detaliat pentru acest fragment.\n\nReturnează NUMAI JSON valid:\n\x7b\"compatibility_percent\": număr_întreg, \"feedback_markdown\": \"text curat și profesionist\"\x7d\n\nCV fragment:\n").toList

/-- Text of the per-chunk prompt of `/analyze-cv` between the fragments. -/
def promptChunkMid : List Char := ("\n\nJob fragment:\n").toList

/-- The per-chunk prompt of `/analyze-cv` (an f-string over both fragments). -/
def prompt_chunk (cvC jobC : List Char) : List Char :=
  promptChunkPre ++ cvC ++ promptChunkMid ++ jobC ++ ("\n").toList

/-- Text of the final rewrite prompt of `/analyze-cv` before the combined
feedback. -/
def finalPromptPre : List Char :=
  ("\nAi primit mai multe feedback-uri parțiale despre compatibilitatea unui CV cu descrierea unui job.\nRescrie-le într-un text **profesionist, fluent și corect gramatical**, în română, fără erori, fără propoziții tăiate sau fără diacritice lipsă.\nText combinat din AI:\n").toList

/-- Text of the final rewrite prompt of `/analyze-cv` after the combined
feedback. -/
def finalPromptSuf : List Char :=
  ("\nReturnează NUMAI text curat, profesional și coerent.\n").toList

/-- The final rewrite prompt of `/analyze-cv`. -/
def final_prompt (combined : List Char) : List Char :=
  finalPromptPre ++ combined ++ finalPromptSuf

/-- Lines 451–461 of `app.py`: parse one chunk response with `safe_json`;
a falsy result or a missing required key is replaced by the neutral
default; on a truthy non-container result the `in` check raises
`TypeError` (`Except.error`, absorbed by the route's outer `try`).
Returns the pair of appended values
`(compatibility_percent, feedback_markdown)`. -/
def chunkParse (raw : List Char) : Except Unit (JsonValue × JsonValue) :=
  match safe_json raw with
  | none => .ok (.num 70, .str defaultChunkFeedback)
  | some parsed =>
    if jsonTruthy parsed = false then .ok (.num 70, .str defaultChunkFeedback)
    else
      (pyContains cpKey parsed).bind fun hasCp =>
        if hasCp = false then .ok (.num 70, .str defaultChunkFeedback)
        else
          (pyContains fmKey parsed).bind fun hasFm =>
            if hasFm = false then .ok (.num 70, .str defaultChunkFeedback)
            else
              (pyIndex parsed fmKey).bind fun fb =>
                (pyIndex parsed cpKey).map fun cp => (cp, fb)

/-- One iteration of the `/analyze-cv` chunk loop. -/
def chunkEval (P : Providers) (pr : List Char × List Char) :
    Except Unit (JsonValue × JsonValue) :=
  chunkParse (gemini_text P (prompt_chunk pr.1 pr.2))

/-- The whole `/analyze-cv` chunk loop, in chunk order. -/
def collectChunks (P : Providers) :
    List (List Char × List Char) → Except Unit (List (JsonValue × JsonValue))
  | [] => .ok []
  | pr :: rest =>
    (chunkEval P pr).bind fun x =>
      (collectChunks P rest).map fun xs => x :: xs

/-- Route-level failure modes: the 400 "missing data" response, or a 500
(the route's outer `except`, or for `/analyze-cv-quality` an unhandled
exception turned into a 500 by Flask). -/
inductive RouteErr where
  | badRequest
  | internal
deriving Repr, DecidableEq

/-- The chunk pair sequence of `/analyze-cv` for given inputs. -/
def cvPairs (cvRaw jobText : List Char) : List (List Char × List Char) :=
  zipLongest (chunk_text (clean_text cvRaw) 3000)
    (chunk_text (clean_text (pyStrip jobText)) 3000)

/-- The separator of `"\n\n".join(chunk_feedbacks)`. -/
def nl2 : List Char := ("\n\n").toList

/-- Lines 463–474 of `app.py`: join the per-chunk feedback, run the final
rewrite call, and fall back to the raw concatenation when the rewrite
output strips to empty. -/
def resFinalOf (P : Providers) (parts : List (List Char)) : List Char :=
  let combined := joinWith nl2 parts
  let res0 := gemini_text P (final_prompt combined)
  if pyStrip res0 = [] then combined else res0

/-- The `/analyze-cv` route body.  `cvRaw` is the resolved
`data.get("cv_text") or MEMORY.get("cv_text") or ""`; `jobText` the raw
`job_text` field (the route strips it on extraction).  The `MEMORY`
write and the HTTP envelope are out of scope.  Returns the payload
`(compatibility_percent, feedback_markdown)`. -/
def analyze_cv (P : Providers) (cvRaw jobText : List Char) :
    Except RouteErr (Int × List Char) :=
  let job_raw := pyStrip jobText
  if cvRaw = [] ∨ job_raw = [] then .error .badRequest
  else
    match collectChunks P (cvPairs cvRaw jobText) with
    | .error _ => .error .internal
    | .ok partials =>
      let scores := partials.map (fun x => x.1)
      let fbs := partials.map (fun x => x.2)
      match pyJoinParts fbs with
      | .error _ => .error .internal
      | .ok parts =>
        if scores.isEmpty then .ok (75, resFinalOf P parts)
        else
          match pySum scores with
          | .error _ => .error .internal
          | .ok s => .ok (Int.tdiv s (scores.length : Int), resFinalOf P parts)

/-! ## The `/analyze-cv-quality` aggregation route -/

/-- The key `"clarity_score"`. -/
def clarityKey : List Char := ("clarity_score").toList

/-- The key `"relevance_score"`. -/
def relevanceKey : List Char := ("relevance_score").toList

/-- The key `"structure_score"`. -/
def structureKey : List Char := ("structure_score").toList

/-- The key `"concrete_improvements"`. -/
def improveKey : List Char := ("concrete_improvements").toList

/-- The key `"suggested_rephrasings"`. -/
def rephraseKey : List Char := ("suggested_rephrasings").toList

/-- The neutral default dict substituted for a falsy chunk parse in
`/analyze-cv-quality`. -/
def defaultQualityDict : JsonValue :=
  .obj [(clarityKey, .num 7), (relevanceKey, .num 7), (structureKey, .num 7),
        (improveKey, .arr []), (rephraseKey, .arr [])]

/-- The per-chunk prompt of `/analyze-cv-quality` before the CV fragment
(the long rule list of the source template is inert data for every claim
— all theorems quantify over the provider behaviour — and is kept in
abbreviated form). -/
def promptQualityPre : List Char :=
  ("\nYou are a senior hybrid recruiter with 10+ years of experience. Analyze ONLY the CV fragment below.\nAssign scores 0-10:\n- clarity_score\n- relevance_score\n- structure_score\nconcrete_improvements: list of 2 concrete suggestions\nsuggested_rephrasings: list of 3 rephrasing pairs\nReturn ONLY valid JSON.\n\nCV fragment:\n").toList

/-- The per-chunk prompt of `/analyze-cv-quality`. -/
def prompt_quality (chunk : List Char) : List Char :=
  promptQualityPre ++ chunk ++ ("\n").toList

/-- Per-chunk collected values of `/analyze-cv-quality`:
the three score values and the two suggestion lists. -/
structure QParts where
  clarS : List JsonValue
  relS : List JsonValue
  strS : List JsonValue
  imps : List JsonValue
  reps : List JsonValue

/-- Lines 383–399 of `app.py`: one chunk of `/analyze-cv-quality` — the
parsed response (or the neutral default dict when falsy), then the five
`.get` accesses.  A truthy non-dict parse makes `.get` raise
`AttributeError` (modelled `Except.error`; the route has no handler, so
Flask turns it into a 500). -/
def qualityChunk (raw : List Char) :
    Except Unit (JsonValue × JsonValue × JsonValue × JsonValue × JsonValue) :=
  let parsed :=
    match safe_json raw with
    | none => defaultQualityDict
    | some p => if jsonTruthy p = false then defaultQualityDict else p
  (pyGet parsed clarityKey (.num 7)).bind fun c =>
    (pyGet parsed relevanceKey (.num 7)).bind fun r =>
      (pyGet parsed structureKey (.num 7)).bind fun st =>
        (pyGet parsed improveKey (.arr [])).bind fun im =>
          (pyGet parsed rephraseKey (.arr [])).map fun rp => (c, r, st, im, rp)

/-- The whole `/analyze-cv-quality` chunk loop, in chunk order
(the `extend` calls flatten the two suggestion values). -/
def qualityCollect (P : Providers) : List (List Char) → Except Unit QParts
  | [] => .ok ⟨[], [], [], [], []⟩
  | ch :: rest =>
    (qualityChunk (gemini_text P (prompt_quality ch))).bind fun x =>
      (pyExtendList x.2.2.2.1).bind fun ims =>
        (pyExtendList x.2.2.2.2).bind fun rps =>
          (qualityCollect P rest).map fun acc =>
            ⟨x.1 :: acc.clarS, x.2.1 :: acc.relS, x.2.2.1 :: acc.strS,
             ims ++ acc.imps, rps ++ acc.reps⟩

/-- The aggregated payload of `/analyze-cv-quality` (the fixed
`overall_assessment` string is omitted). -/
structure QualityPayload where
  clarity_score : Int
  relevance_score : Int
  structure_score : Int
  concrete_improvements : List JsonValue
  suggested_rephrasings : List JsonValue

/-- `int(sum(xs)/len(xs)) if xs else 0` over collected score values. -/
def qualityAvg (xs : List JsonValue) : Except Unit Int :=
  if xs.isEmpty then .ok 0
  else (pySum xs).map fun s => Int.tdiv s (xs.length : Int)

/-- The `/analyze-cv-quality` route body (inputs resolved as for
`analyze_cv`). -/
def analyze_cv_quality (P : Providers) (cvRaw : List Char) :
    Except RouteErr QualityPayload :=
  let cv := clean_text cvRaw
  if cv = [] then .error .badRequest
  else
    match qualityCollect P (chunk_text cv 3000) with
    | .error _ => .error .internal
    | .ok q =>
      match qualityAvg q.clarS, qualityAvg q.relS, qualityAvg q.strS with
      | .ok a, .ok b, .ok c => .ok ⟨a, b, c, q.imps.take 10, q.reps.take 10⟩
      | _, _, _ => .error .internal

/-! ## Definitions modelled from the spec, for comparison -/

/-- The spec data model status enum of `GenerationResult`. -/
inductive GenStatus where
  | ok
  | providerError
  | parseError
  | empty
deriving Repr, DecidableEq

/-- Modelled from the spec (section 4.4): try available providers in
priority order, accept the first error-free response that is non-empty
after trimming. -/
def specTry : List (List Char → ProvOutcome) → List Char → Option (List Char)
  | [], _ => none
  | b :: rest, prompt =>
    match b prompt with
    | .ok t => if pyStrip t = [] then specTry rest prompt else some (pyStrip t)
    | .raise => specTry rest prompt

/-- Modelled from the spec (section 4.4): the orchestrator contract
`generate_raw` — on exhaustion return status `Empty` when no provider was
available and `ProviderError` when all available providers were attempted
and failed. -/
def specGenerateRaw (P : Providers) (prompt : List Char) :
    GenStatus × Option (List Char) :=
  let avail := [P.groq, P.gemini].filterMap id
  match specTry avail prompt with
  | some t => (.ok, some t)
  | none => if avail.isEmpty then (.empty, none) else (.providerError, none)

/-- Modelled from the spec (section 4.5): "combined by arithmetic mean,
rounded to the nearest integer" — nearest-integer rounding of `sum / n`
(half rounds up), stated for the comparison in the aggregation claims. -/
def roundNearestMean (sum : Int) (n : Nat) : Int :=
  Int.fdiv (2 * sum + n) (2 * n)

/-! ## Well-behavedness predicates used by the round-trip theorem -/

/-- No two adjacent space characters. -/
def noAdjSp : List Char → Bool
  | a :: b :: r => !(a = ' ' && b = ' ') && noAdjSp (b :: r)
  | _ => true

/-- A string value whose canonical rendering `clean_text` leaves intact:
no control characters, no whitespace other than the plain space, and no
two adjacent spaces. -/
def goodStr (s : List Char) : Bool :=
  s.all (fun c => !isCtrl c && (!isPyWs c || c = ' ')) && noAdjSp s

mutual
/-- All strings of the value (members and keys) satisfy `goodStr`. -/
def goodJson : JsonValue → Bool
  | .null => true
  | .bool _ => true
  | .num _ => true
  | .str s => goodStr s
  | .arr xs => goodList xs
  | .obj kvs => goodFields kvs

/-- `goodJson` on every element. -/
def goodList : List JsonValue → Bool
  | [] => true
  | x :: r => goodJson x && goodList r

/-- `goodStr` on every key, `goodJson` on every value. -/
def goodFields : List (List Char × JsonValue) → Bool
  | [] => true
  | kv :: r => goodStr kv.1 && goodJson kv.2 && goodFields r
end

/-! ## Support definitions for the fenced-JSON round-trip theorem -/

/-- The opening fence token `"```json"`. -/
def fenceOpen : List Char := ("```json").toList

/-- The closing fence token. -/
def fenceClose : List Char := ("```").toList

/-- What a (possibly empty) all-whitespace run becomes under `clean_text`
collapsing. -/
def spOf (w : List Char) : List Char := if w = [] then [] else (' ') :: []

/-- The rendering of one object member. -/
def pairRender (kv : List Char × JsonValue) : List Char :=
  renderStr kv.1 ++ ':' :: render kv.2

/-- The rendering of the remaining array elements after the first —
empty, or a comma followed by the remaining renderings. -/
def sepElems (xs : List JsonValue) : List Char :=
  match xs with
  | [] => []
  | _ :: _ => ',' :: renderElems xs

/-- The rendering of the remaining object members after the first. -/
def sepFields (kvs : List (List Char × JsonValue)) : List Char :=
  match kvs with
  | [] => []
  | _ :: _ => ',' :: renderFields kvs

/-- Decimal value of a digit run, most significant first, on top of an
accumulator. -/
def digitsVal (ds : List Char) (acc : Nat) : Nat :=
  ds.foldl (fun a c => a * 10 + digitVal c) acc

/-- Text that may legally follow a rendered value inside a larger
rendering: nothing, or a comma / closing bracket / closing brace. -/
def stopper (rest : List Char) : Prop :=
  rest = [] ∨ ∃ c t, rest = c :: t ∧ (c = ',' ∨ c = ']' ∨ c = '}')

/-! ## Concrete inputs used by the aggregation counterexamples -/

/-- A response parsing to `compatibility_percent = 0`. -/
def respScore0 : List Char :=
  ("\x7b\"compatibility_percent\": 0, \"feedback_markdown\": \"f\"\x7d").toList

/-- A response parsing to `compatibility_percent = 1`. -/
def respScore1 : List Char :=
  ("\x7b\"compatibility_percent\": 1, \"feedback_markdown\": \"f\"\x7d").toList

/-- A response parsing to `compatibility_percent = 50`. -/
def respScore50 : List Char :=
  ("\x7b\"compatibility_percent\": 50, \"feedback_markdown\": \"ok\"\x7d").toList

/-- The rewrite-pass response of the counterexample provider. -/
def respRewrite : List Char := ("rescris").toList

/-- Counterexample provider behaviour for the truncation claim: the three
chunk prompts are told apart by the marker letters of their CV fragments,
and every other prompt (the rewrite pass) gets plain text. -/
def bC4 : List Char → ProvOutcome := fun p =>
  if ('X') ∈ p then .ok respScore0
  else if ('Y') ∈ p then .ok respScore1
  else if ('Z') ∈ p then .ok respScore1
  else .ok respRewrite

/-- Counterexample provider configuration for the truncation claim. -/
def PC4 : Providers := ⟨some bC4, none⟩

/-- A 6010-character CV yielding three chunks with distinct markers. -/
def cvC4 : List Char :=
  List.replicate 3000 'X' ++ (List.replicate 3000 'Y' ++ List.replicate 10 'Z')

/-- Counterexample provider behaviour for the aggregation-abort claim:
the first chunk gets the bare text `"5"`, every other prompt a perfectly
usable JSON response. -/
def bC6 : List Char → ProvOutcome := fun p =>
  if ('X') ∈ p then .ok (("5").toList) else .ok respScore50

/-- Counterexample provider configuration for the aggregation-abort claim. -/
def PC6 : Providers := ⟨some bC6, none⟩

/-- A 3010-character CV yielding two chunks with distinct markers. -/
def cvC6 : List Char := List.replicate 3000 'X' ++ List.replicate 10 'Y'

/-! # Theorems

## Chunking -/

theorem chunkTextF_join {size : Nat} (hs : 0 < size) :
    ∀ fuel text, List.length text ≤ fuel → (chunkTextF fuel text size).flatten = text := by
  intro fuel
  induction fuel with
  | zero =>
    intro text h
    have : text = [] := List.eq_nil_of_length_eq_zero (Nat.le_zero.mp h)
    subst this
    rfl
  | succ f ih =>
    intro text h
    cases text with
    | nil => rfl
    | cons c cs =>
      have hrec := ih ((c :: cs).drop size) (by
        have : ((c :: cs).drop size).length = (c :: cs).length - size := by
          simp [List.length_drop]
        omega)
      simp only [chunkTextF, List.flatten_cons, hrec, List.take_append_drop]

theorem chunkTextF_mem_length {size : Nat} :
    ∀ fuel text c, c ∈ chunkTextF fuel text size → c.length ≤ size := by
  intro fuel
  induction fuel with
  | zero => intro text c hc; simp [chunkTextF] at hc
  | succ f ih =>
    intro text c hc
    cases text with
    | nil => simp [chunkTextF] at hc
    | cons x xs =>
      simp only [chunkTextF, List.mem_cons] at hc
      rcases hc with rfl | hc
      · simp
      · exact ih _ c hc

/-- C5: for every text `t` and every `max_len > 0`, concatenating in
order the segments produced by `chunk_text t max_len` reproduces `t`
exactly, and every chunk's length is at most `max_len` (in particular
every chunk except possibly the last). -/
theorem chunk_text_join_and_bound (t : List Char) (maxLen : Nat) (h : 0 < maxLen) :
    (chunk_text t maxLen).flatten = t ∧ ∀ c ∈ chunk_text t maxLen, c.length ≤ maxLen :=
  ⟨chunkTextF_join h t.length t le_rfl,
   fun c hc => chunkTextF_mem_length t.length t c hc⟩

/-- Witness for C5 at `t = "abcdefgh"`, `max_len = 3`. -/
theorem chunk_text_join_and_bound_wit :
    (chunk_text (("abcdefgh").toList) 3).flatten = ("abcdefgh").toList ∧
      ∀ c ∈ chunk_text (("abcdefgh").toList) 3, c.length ≤ 3 :=
  chunk_text_join_and_bound (("abcdefgh").toList) 3 (by decide)

/-! ## Text normalisation -/

theorem squeezeSpaces_head? : ∀ l : List Char, (squeezeSpaces l).head? = l.head? := by
  intro l
  induction l using squeezeSpaces.induct with
  | case1 => rfl
  | case2 c => rfl
  | case3 a b r hab ih =>
    obtain ⟨ha, hb⟩ := hab
    simp only [squeezeSpaces, if_pos (And.intro ha hb), ih]
    simp [ha, hb]
  | case4 a b r hab ih =>
    simp [squeezeSpaces, if_neg hab]

theorem mem_squeezeSpaces {c : Char} : ∀ {l : List Char}, c ∈ squeezeSpaces l → c ∈ l := by
  intro l
  induction l using squeezeSpaces.induct with
  | case1 => intro h; exact h
  | case2 x => intro h; exact h
  | case3 a b r hab ih =>
    intro h
    simp only [squeezeSpaces, if_pos hab] at h
    exact List.mem_cons_of_mem a (ih h)
  | case4 a b r hab ih =>
    intro h
    simp only [squeezeSpaces, if_neg hab, List.mem_cons] at h
    rcases h with rfl | h
    · exact List.mem_cons_self c _
    · exact List.mem_cons_of_mem a (ih h)

theorem mem_collapseWs {c : Char} {l : List Char} (h : c ∈ collapseWs l) :
    c = ' ' ∨ (c ∈ l ∧ isPyWs c = false) := by
  have h1 : c ∈ wsToSpace l := mem_squeezeSpaces h
  simp only [wsToSpace, List.mem_map] at h1
  obtain ⟨a, ha, hac⟩ := h1
  by_cases hws : isPyWs a
  · left; simp [hws] at hac; exact hac.symm
  · right
    simp only [hws, if_neg] at hac
    simp only [Bool.not_eq_true] at hws
    rw [if_neg] at hac
    · exact ⟨hac ▸ ha, hac ▸ hws⟩
    · simp [hws]

theorem noAdjSp_cons {x : Char} {l : List Char} (h : noAdjSp (x :: l) = true) :
    noAdjSp l = true := by
  cases l with
  | nil => rfl
  | cons y r =>
    simp only [noAdjSp, Bool.and_eq_true] at h
    exact h.2

theorem noAdjSp_squeeze (l : List Char) : noAdjSp (squeezeSpaces l) = true := by
  induction l using squeezeSpaces.induct with
  | case1 => rfl
  | case2 c => rfl
  | case3 a b r hab ih => simpa only [squeezeSpaces, if_pos hab] using ih
  | case4 a b r hab ih =>
    simp only [squeezeSpaces, if_neg hab]
    have hh := squeezeSpaces_head? (b :: r)
    cases hm : squeezeSpaces (b :: r) with
    | nil => rfl
    | cons y m =>
      rw [hm] at ih hh
      simp only [List.head?_cons] at hh
      have hyb : y = b := by injection hh
      subst hyb
      simp only [noAdjSp, Bool.and_eq_true]
      exact ⟨by simpa using not_and_or.mp hab, ih⟩

theorem noAdjSp_append_right : ∀ p s : List Char, noAdjSp (p ++ s) = true → noAdjSp s = true := by
  intro p
  induction p with
  | nil => intro s h; exact h
  | cons x p' ih => intro s h; exact ih s (noAdjSp_cons h)

theorem noAdjSp_append_left : ∀ p s : List Char, noAdjSp (p ++ s) = true → noAdjSp p = true := by
  intro p
  induction p with
  | nil => intro s h; rfl
  | cons x p' ih =>
    intro s h
    cases p' with
    | nil => rfl
    | cons y p'' =>
      simp only [List.cons_append, noAdjSp, Bool.and_eq_true] at h ⊢
      exact ⟨h.1, ih s h.2⟩

theorem head?_dropWhile_not (p : Char → Bool) :
    ∀ l : List Char, ∀ c, ((l.dropWhile p).head? = some c) → p c = false := by
  intro l
  induction l with
  | nil => intro c h; simp [List.dropWhile] at h
  | cons x xs ih =>
    intro c h
    by_cases hx : p x
    · rw [List.dropWhile_cons_of_pos hx] at h; exact ih c h
    · rw [List.dropWhile_cons_of_neg hx] at h
      simp only [List.head?_cons, Option.some.injEq] at h
      subst h
      simpa using hx

theorem pyStrip_eq_reverse (l : List Char) :
    pyStrip l = ((l.dropWhile isPyWs).reverse.dropWhile isPyWs).reverse := rfl

theorem pyStrip_infix (l : List Char) : ∃ p q, l = p ++ pyStrip l ++ q := by
  obtain ⟨p, hp⟩ := List.dropWhile_suffix (l := l) isPyWs
  obtain ⟨p2, hp2⟩ := List.dropWhile_suffix (l := (l.dropWhile isPyWs).reverse) isPyWs
  have hd : l.dropWhile isPyWs = pyStrip l ++ p2.reverse := by
    have h3 := congrArg List.reverse hp2
    simp only [List.reverse_append, List.reverse_reverse] at h3
    rw [pyStrip_eq_reverse]
    exact h3.symm
  refine ⟨p, p2.reverse, ?_⟩
  calc l = p ++ l.dropWhile isPyWs := hp.symm
    _ = p ++ (pyStrip l ++ p2.reverse) := by rw [hd]
    _ = p ++ pyStrip l ++ p2.reverse := (List.append_assoc _ _ _).symm

theorem mem_pyStrip {c : Char} {l : List Char} (h : c ∈ pyStrip l) : c ∈ l := by
  obtain ⟨p, q, hpq⟩ := pyStrip_infix l
  rw [hpq]
  simp only [List.mem_append]
  exact Or.inl (Or.inr h)

theorem pyStrip_head?_not_ws (l : List Char) (c : Char)
    (h : (pyStrip l).head? = some c) : isPyWs c = false := by
  rw [pyStrip_eq_reverse, List.head?_reverse] at h
  set x := (l.dropWhile isPyWs).reverse.dropWhile isPyWs with hx
  cases hxe : x with
  | nil => rw [hxe] at h; simp at h
  | cons y m =>
    obtain ⟨t, ht⟩ := List.dropWhile_suffix (l := (l.dropWhile isPyWs).reverse) isPyWs
    rw [← hx] at ht
    have hg : x.getLast? = (l.dropWhile isPyWs).reverse.getLast? := by
      rw [← ht]
      exact (List.getLast?_append_of_ne_nil t (by rw [hxe]; simp)).symm
    rw [hxe] at hg h
    rw [hg] at h
    rw [List.getLast?_reverse] at h
    exact head?_dropWhile_not isPyWs l c h

theorem pyStrip_getLast?_not_ws (l : List Char) (c : Char)
    (h : (pyStrip l).getLast? = some c) : isPyWs c = false := by
  rw [pyStrip_eq_reverse, List.getLast?_reverse] at h
  exact head?_dropWhile_not isPyWs _ c h

/-- C10: the output of `clean_text` contains no ASCII control character
(0x00–0x1F) and has no leading or trailing whitespace, for every input
string (hence for every string the routes pass downstream through it). -/
theorem clean_text_no_ctrl_no_edge_ws (s : List Char) :
    (∀ c ∈ clean_text s, 0x20 ≤ c.toNat) ∧
      (∀ c, (clean_text s).head? = some c → isPyWs c = false) ∧
      (∀ c, (clean_text s).getLast? = some c → isPyWs c = false) := by
  refine ⟨?_, ?_, ?_⟩
  · intro c hc
    have h1 : c ∈ removeCtrl (collapseWs s) := mem_pyStrip hc
    simp only [removeCtrl, List.mem_filter] at h1
    have h2 : ¬ (c.toNat ≤ 0x1f) := by simpa [isCtrl] using h1.2
    omega
  · intro c hc; exact pyStrip_head?_not_ws _ c hc
  · intro c hc; exact pyStrip_getLast?_not_ws _ c hc

theorem squeezeSpaces_fix (l : List Char) (h : noAdjSp l = true) : squeezeSpaces l = l := by
  induction l using squeezeSpaces.induct with
  | case1 => rfl
  | case2 c => rfl
  | case3 a b r hab ih =>
    exfalso
    simp only [noAdjSp, Bool.and_eq_true] at h
    have h1 := h.1
    simp [hab.1, hab.2] at h1
  | case4 a b r hab ih =>
    simp only [noAdjSp, Bool.and_eq_true] at h
    simp only [squeezeSpaces, if_neg hab]
    rw [ih h.2]

theorem wsToSpace_fix (l : List Char) (h : ∀ c ∈ l, isPyWs c = true → c = ' ') :
    wsToSpace l = l := by
  induction l with
  | nil => rfl
  | cons x xs ih =>
    have hx : (if isPyWs x then ' ' else x) = x := by
      by_cases hws : isPyWs x
      · rw [if_pos hws]; exact (h x (List.mem_cons_self x xs) hws).symm
      · rw [if_neg hws]
    have hxs : wsToSpace xs = xs := ih (fun c hc hw => h c (List.mem_cons_of_mem x hc) hw)
    simp only [wsToSpace, List.map_cons] at hxs ⊢
    rw [hx, hxs]

theorem removeCtrl_fix (l : List Char) (h : ∀ c ∈ l, isCtrl c = false) :
    removeCtrl l = l := by
  simp only [removeCtrl]
  rw [List.filter_eq_self]
  intro a ha
  simp [h a ha]

theorem dropWhile_fix_of_head (p : Char → Bool) (l : List Char)
    (h : ∀ c, l.head? = some c → p c = false) : l.dropWhile p = l := by
  cases l with
  | nil => rfl
  | cons x xs =>
    have hx := h x rfl
    simp [List.dropWhile_cons, hx]

theorem pyStrip_fix (l : List Char)
    (hh : ∀ c, l.head? = some c → isPyWs c = false)
    (hl : ∀ c, l.getLast? = some c → isPyWs c = false) : pyStrip l = l := by
  rw [pyStrip_eq_reverse]
  rw [dropWhile_fix_of_head isPyWs l hh]
  rw [dropWhile_fix_of_head isPyWs l.reverse
    (fun c hc => hl c (by rwa [List.head?_reverse] at hc))]
  exact List.reverse_reverse l

theorem noAdjSp_collapseWs (l : List Char) : noAdjSp (collapseWs l) = true :=
  noAdjSp_squeeze (wsToSpace l)

theorem clean_text_fix (l : List Char)
    (h1 : noAdjSp l = true)
    (h2 : ∀ c ∈ l, isPyWs c = true → c = ' ')
    (h3 : ∀ c ∈ l, isCtrl c = false)
    (hh : ∀ c, l.head? = some c → isPyWs c = false)
    (hl : ∀ c, l.getLast? = some c → isPyWs c = false) :
    clean_text l = l := by
  unfold clean_text collapseWs
  rw [wsToSpace_fix l h2, squeezeSpaces_fix l h1, removeCtrl_fix l h3, pyStrip_fix l hh hl]

/-- C7 (amended): `clean_text` is idempotent on every input whose control
characters are all whitespace; in general a non-whitespace control
character separating two whitespace runs leaves a double space after one
pass (see the counterexample), collapsed only by a second pass. -/
theorem clean_text_idempotent_no_ctrl (s : List Char)
    (h : ∀ c ∈ s, isCtrl c = true → isPyWs c = true) :
    clean_text (clean_text s) = clean_text s := by
  have hnc : ∀ c ∈ collapseWs s, isCtrl c = false := by
    intro c hc
    rcases mem_collapseWs hc with rfl | ⟨hmem, hws⟩
    · decide
    · by_contra hct
      simp only [Bool.not_eq_false] at hct
      rw [h c hmem hct] at hws
      simp at hws
  have hrc : removeCtrl (collapseWs s) = collapseWs s := removeCtrl_fix _ hnc
  have ht : clean_text s = pyStrip (collapseWs s) := by
    unfold clean_text
    rw [hrc]
  rw [ht]
  obtain ⟨p, q, hpq⟩ := pyStrip_infix (collapseWs s)
  apply clean_text_fix
  · have hc := noAdjSp_collapseWs s
    rw [hpq] at hc
    exact noAdjSp_append_right p _ (noAdjSp_append_left _ q hc)
  · intro c hct hws
    rcases mem_collapseWs (mem_pyStrip hct) with he | ⟨_, hf⟩
    · exact he
    · rw [hws] at hf; simp at hf
  · intro c hct
    exact hnc c (mem_pyStrip hct)
  · intro c hc; exact pyStrip_head?_not_ws _ c hc
  · intro c hc; exact pyStrip_getLast?_not_ws _ c hc

/-- C7 (counterexample): on `"a \x01 b"` — a non-whitespace control
character between two spaces — one `clean_text` pass yields `"a  b"`,
which a second pass changes to `"a b"`; the json-candidate normalisation
profile is not idempotent as claimed. -/
theorem clean_text_not_idempotent_cex :
    clean_text (clean_text (("a \x01 b").toList)) ≠ clean_text (("a \x01 b").toList) := by
  decide

/-- Witness for the amended C7 at the input `"a  b\n"` (all its control
characters are whitespace). -/
theorem clean_text_idempotent_no_ctrl_wit :
    clean_text (clean_text (("a  b\n").toList)) = clean_text (("a  b\n").toList) :=
  clean_text_idempotent_no_ctrl (("a  b\n").toList) (by decide)

/-! ## `safe_json` on brace-free and non-object inputs -/

theorem mem_clean_text {c : Char} {s : List Char} (h : c ∈ clean_text s) :
    c = ' ' ∨ c ∈ s := by
  have h1 : c ∈ removeCtrl (collapseWs s) := mem_pyStrip h
  have h2 : c ∈ collapseWs s := (List.mem_filter.mp h1).1
  rcases mem_collapseWs h2 with he | ⟨hm, _⟩
  · exact Or.inl he
  · exact Or.inr hm

theorem braceSpan_none_of_no_brace (t : List Char) (h : ('{') ∉ t) :
    braceSpan t = none := by
  have hs1 : t.dropWhile (fun c => !decide (c = '{')) = [] := by
    rw [List.dropWhile_eq_nil_iff]
    intro x hx
    simp only [Bool.not_eq_true', decide_eq_false_iff_not]
    intro hxe
    exact h (hxe ▸ hx)
  simp [braceSpan, hs1]

/-- C8 (amended): for every text without a `{` character whose direct
parse after cleaning fails, `safe_json` returns `None` having made only
the one direct `json.loads` attempt (no brace-scan retry), and — the
model being a total function — no exception reaches the caller.  The
unamended claim is false because a brace-free text can itself be valid
JSON, in which case the direct parse succeeds (see the counterexample). -/
theorem safe_json_no_brace_direct_fail (s : List Char)
    (h1 : ('{') ∉ s) (h2 : json_loads (clean_text s) = none) :
    safe_json s = none ∧ safe_json_attempts s ≤ 1 := by
  by_cases hs : s = []
  · subst hs
    exact ⟨rfl, by simp [safe_json_attempts]⟩
  · have hnb : ('{') ∉ clean_text s := by
      intro hc
      rcases mem_clean_text hc with he | hm
      · exact absurd he (by decide)
      · exact h1 hm
    have hbs : braceSpan (clean_text s) = none := braceSpan_none_of_no_brace _ hnb
    refine ⟨?_, ?_⟩
    · simp [safe_json, hs, h2, hbs]
    · simp [safe_json_attempts, hs, h2, hbs]

/-- C8 (counterexample): `"true"` contains no brace, yet `safe_json`
succeeds on it — the whole text parses as JSON — so brace-free text does
not always fail extraction. -/
theorem safe_json_no_brace_success_cex :
    ('{') ∉ ("true").toList ∧ safe_json (("true").toList) = some (.bool true) :=
  ⟨by decide, by rfl⟩

/-- Witness for the amended C8 at `"hello"` (no brace, direct parse fails). -/
theorem safe_json_no_brace_direct_fail_wit :
    safe_json (("hello").toList) = none ∧ safe_json_attempts (("hello").toList) ≤ 1 :=
  safe_json_no_brace_direct_fail (("hello").toList) (by decide) (by rfl)

/-- C9: a successful `safe_json` result is not guaranteed to be a
string-keyed mapping: `"5"` and `"[1, 2]"` parse as whole texts to a
number and a list, which `safe_json` returns as-is. -/
theorem safe_json_nonobject_result :
    safe_json (("5").toList) = some (.num 5) ∧ isObjV (.num 5) = false ∧
      safe_json (("[1, 2]").toList) = some (.arr [.num 1, .num 2]) ∧
      isObjV (.arr [.num 1, .num 2]) = false :=
  ⟨by rfl, by rfl, by rfl, by rfl⟩

/-! ## Orchestrator fallback -/

/-- C1 (amended): extraction failure does not trigger provider fallback.
Whenever the first configured provider returns text — however
unparseable — `gemini_text` returns that text stripped and the second
provider is not invoked; the structured-JSON caller (the `/analyze-cv`
chunk loop) substitutes the neutral default when extraction then fails,
with no further provider attempt. -/
theorem extraction_failure_no_fallback (P : Providers) (b : List Char → ProvOutcome)
    (cvC jobC t : List Char)
    (hg : P.groq = some b) (hok : b (prompt_chunk cvC jobC) = .ok t)
    (hfail : safe_json (pyStrip t) = none) :
    gemini_text P (prompt_chunk cvC jobC) = pyStrip t ∧
      gemini_invoked P (prompt_chunk cvC jobC) = false ∧
      chunkEval P (cvC, jobC) = .ok (.num 70, .str defaultChunkFeedback) := by
  have h1 : gemini_text P (prompt_chunk cvC jobC) = pyStrip t := by
    simp [gemini_text, hg, hok]
  refine ⟨h1, ?_, ?_⟩
  · simp [gemini_invoked, hg, hok]
  · simp only [chunkEval]
    rw [h1]
    simp [chunkParse, hfail]

/-- C1 (counterexample): first provider returns unparseable prose, second
provider would return valid JSON; the chunk result is the neutral default
`(70, generic feedback)` — not the second provider's parseable answer —
and the second provider is never invoked.  So extraction failure does not
fall back to the next provider; the default is substituted instead. -/
theorem extraction_failure_no_fallback_cex :
    gemini_invoked
        ⟨some (fun _ => .ok (("I cannot produce JSON, sorry.").toList)),
         some (fun _ => .ok (("\x7b\"compatibility_percent\": 50, \"feedback_markdown\": \"ok\"\x7d").toList))⟩
        (prompt_chunk (("cv text").toList) (("job text").toList)) = false ∧
      chunkEval
        ⟨some (fun _ => .ok (("I cannot produce JSON, sorry.").toList)),
         some (fun _ => .ok (("\x7b\"compatibility_percent\": 50, \"feedback_markdown\": \"ok\"\x7d").toList))⟩
        ((("cv text").toList), (("job text").toList)) =
        .ok (.num 70, .str defaultChunkFeedback) ∧
      safe_json (("\x7b\"compatibility_percent\": 50, \"feedback_markdown\": \"ok\"\x7d").toList) =
        some (.obj [(cpKey, .num 50), (fmKey, .str (("ok").toList))]) :=
  ⟨by rfl, by rfl, by rfl⟩

/-- Witness for the amended C1: a concrete first provider returning
non-JSON prose. -/
theorem extraction_failure_no_fallback_wit :
    gemini_text
        ⟨some (fun _ => .ok (("no json here").toList)), some (fun _ => .ok (("x").toList))⟩
        (prompt_chunk (("cv").toList) (("job").toList)) = pyStrip (("no json here").toList) ∧
      gemini_invoked
        ⟨some (fun _ => .ok (("no json here").toList)), some (fun _ => .ok (("x").toList))⟩
        (prompt_chunk (("cv").toList) (("job").toList)) = false ∧
      chunkEval
        ⟨some (fun _ => .ok (("no json here").toList)), some (fun _ => .ok (("x").toList))⟩
        ((("cv").toList), (("job").toList)) = .ok (.num 70, .str defaultChunkFeedback) :=
  extraction_failure_no_fallback _ _ _ _ _ rfl rfl (by rfl)

/-- C2 (amended): when every configured provider raises, `gemini_text`
catches each exception, falls through, and returns the empty string — no
raw text, and (the model being a total function over explicit outcomes)
no exception propagates to the caller.  The result however carries no
`ProviderError` status tag: it is the very same value as in the
no-provider case (see the counterexample). -/
theorem all_providers_fail_returns_empty (P : Providers) (prompt : List Char)
    (hg : ∀ b, P.groq = some b → b prompt = .raise)
    (he : ∀ b, P.gemini = some b → b prompt = .raise) :
    gemini_text P prompt = [] := by
  cases hgq : P.groq with
  | none =>
    cases hge : P.gemini with
    | none => simp [gemini_text, gemini_fallback, hgq, hge]
    | some b => simp [gemini_text, gemini_fallback, hgq, hge, he b hge]
  | some b =>
    cases hge : P.gemini with
    | none => simp [gemini_text, gemini_fallback, hgq, hge, hg b hgq]
    | some b2 => simp [gemini_text, gemini_fallback, hgq, hge, hg b hgq, he b2 hge]

/-- C2 (counterexample): the string `gemini_text` returns when all
configured providers raise is identical to the one returned when no
provider is configured at all, while the spec statuses of the two
situations differ (`ProviderError` versus `Empty`) — so the result cannot
be said to carry a `ProviderError` status. -/
theorem all_providers_fail_status_collapse_cex :
    gemini_text ⟨some (fun _ => .raise), some (fun _ => .raise)⟩ [] = [] ∧
      gemini_text ⟨none, none⟩ [] = [] ∧
      (specGenerateRaw ⟨some (fun _ => .raise), some (fun _ => .raise)⟩ []).1 =
        GenStatus.providerError ∧
      (specGenerateRaw ⟨none, none⟩ []).1 = GenStatus.empty :=
  ⟨rfl, rfl, rfl, rfl⟩

/-- Witness for the amended C2: both providers configured, both raising. -/
theorem all_providers_fail_returns_empty_wit :
    gemini_text ⟨some (fun _ => .raise), some (fun _ => .raise)⟩ (("p").toList) = [] :=
  all_providers_fail_returns_empty _ _
    (fun b hb => by rw [← Option.some.inj hb])
    (fun b hb => by rw [← Option.some.inj hb])

/-! ## Chunk-shape helper lemmas for the aggregation claims -/

theorem chunkTextF_nil (f size : Nat) : chunkTextF f [] size = [] := by
  cases f <;> rfl

theorem chunkTextF_fuel_irrel {size : Nat} (hs : 0 < size) :
    ∀ f1 f2 t, List.length t ≤ f1 → List.length t ≤ f2 →
      chunkTextF f1 t size = chunkTextF f2 t size := by
  intro f1
  induction f1 with
  | zero =>
    intro f2 t h1 h2
    have : t = [] := List.eq_nil_of_length_eq_zero (Nat.le_zero.mp h1)
    subst this
    rw [chunkTextF_nil, chunkTextF_nil]
  | succ f ih =>
    intro f2 t h1 h2
    cases t with
    | nil => rw [chunkTextF_nil, chunkTextF_nil]
    | cons c cs =>
      cases f2 with
      | zero => simp at h2
      | succ f2' =>
        simp only [chunkTextF]
        have hlen : ((c :: cs).drop size).length = (c :: cs).length - size := by
          simp [List.length_drop]
        rw [ih f2' ((c :: cs).drop size) (by omega) (by omega)]

theorem chunk_text_cons_of_length (a b : List Char) (size : Nat)
    (ha : a.length = size) (hs : 0 < size) :
    chunk_text (a ++ b) size = a :: chunk_text b size := by
  unfold chunk_text
  have hne : a ≠ [] := by
    intro h
    rw [h] at ha
    simp at ha
    omega
  cases hab : a ++ b with
  | nil =>
    exact absurd (List.append_eq_nil.mp hab).1 hne
  | cons c cs =>
    rw [← hab]
    have hlen : (a ++ b).length = size + b.length := by simp [ha]
    rw [hlen]
    have hstep : size + b.length = (size - 1 + b.length) + 1 := by omega
    rw [hstep]
    have hane : a ++ b ≠ [] := by rw [hab]; simp
    conv_lhs => rw [show a ++ b = c :: cs from hab]
    simp only [chunkTextF]
    rw [← hab]
    have htake : (a ++ b).take size = a := by
      rw [← ha]
      exact List.take_left a b
    have hdrop : (a ++ b).drop size = b := by
      rw [← ha]
      exact List.drop_left a b
    rw [htake, hdrop]
    rw [chunkTextF_fuel_irrel hs (size - 1 + b.length) b.length b (by omega) le_rfl]

theorem chunk_text_single (a : List Char) (size : Nat)
    (hne : a ≠ []) (hle : a.length ≤ size) :
    chunk_text a size = [a] := by
  unfold chunk_text
  cases a with
  | nil => exact absurd rfl hne
  | cons c cs =>
    simp only [List.length_cons, chunkTextF]
    rw [List.take_of_length_le hle, List.drop_eq_nil_of_le hle]
    rw [chunkTextF_nil]

theorem chunk_text_ne_nil (t : List Char) (size : Nat) (ht : t ≠ []) :
    chunk_text t size ≠ [] := by
  unfold chunk_text
  cases t with
  | nil => exact absurd rfl ht
  | cons c cs => simp [chunkTextF]

theorem noAdjSp_of_no_ws : ∀ l : List Char, (∀ c ∈ l, isPyWs c = false) → noAdjSp l = true := by
  intro l
  induction l with
  | nil => intro; rfl
  | cons x xs ih =>
    intro h
    cases xs with
    | nil => rfl
    | cons y ys =>
      simp only [noAdjSp, Bool.and_eq_true]
      refine ⟨?_, ih (fun c hc => h c (List.mem_cons_of_mem x hc))⟩
      have hx := h x (List.mem_cons_self x _)
      have hxs : x ≠ ' ' := by
        intro he
        rw [he] at hx
        simp [isPyWs] at hx
      simp [hxs]

theorem clean_text_id_plain (l : List Char)
    (h : ∀ c ∈ l, isPyWs c = false ∧ isCtrl c = false) : clean_text l = l := by
  apply clean_text_fix
  · exact noAdjSp_of_no_ws l (fun c hc => (h c hc).1)
  · intro c hc hw
    rw [(h c hc).1] at hw
    simp at hw
  · intro c hc
    exact (h c hc).2
  · intro c hc
    exact (h c (List.mem_of_mem_head? hc)).1
  · intro c hc
    exact (h c (List.mem_of_mem_getLast? hc)).1

theorem collectChunks_length (P : Providers) :
    ∀ prs xs, collectChunks P prs = .ok xs → xs.length = prs.length := by
  intro prs
  induction prs with
  | nil =>
    intro xs h
    simp only [collectChunks] at h
    cases h
    rfl
  | cons pr rest ih =>
    intro xs h
    simp only [collectChunks] at h
    cases he : chunkEval P pr with
    | error e => rw [he] at h; simp [Except.bind] at h
    | ok x =>
      rw [he] at h
      cases hr : collectChunks P rest with
      | error e => rw [hr] at h; simp [Except.bind, Except.map] at h
      | ok xs' =>
        rw [hr] at h
        simp only [Except.bind, Except.map, Except.ok.injEq] at h
        subst h
        simp [ih xs' hr]

theorem zipLongest_ne_nil (a b : List (List Char)) (ha : a ≠ []) :
    zipLongest a b ≠ [] := by
  cases a with
  | nil => exact absurd rfl ha
  | cons x xs => cases b <;> simp [zipLongest]

theorem analyze_cv_unfold (P : Providers) (cvRaw jobText : List Char)
    (partials : List (JsonValue × JsonValue)) (parts : List (List Char)) (s : Int)
    (hcv : cvRaw ≠ []) (hjob : pyStrip jobText ≠ [])
    (hC : collectChunks P (cvPairs cvRaw jobText) = .ok partials)
    (hne : partials ≠ [])
    (hjp : pyJoinParts (partials.map (fun x => x.2)) = .ok parts)
    (hsum : pySum (partials.map (fun x => x.1)) = .ok s) :
    analyze_cv P cvRaw jobText =
      .ok (Int.tdiv s (partials.length : Int), resFinalOf P parts) := by
  have hie : (partials.map (fun x => x.1)).isEmpty = false := by
    simp [List.isEmpty_iff, hne]
  unfold analyze_cv
  rw [if_neg (by simp [hcv, hjob])]
  simp [hC, hjp, hsum, hie, List.length_map]

/-- C4 (amended): each aggregated numeric field equals the arithmetic
mean truncated toward zero — `int(sum(..)/len(..))` — not rounded to the
nearest integer (see the counterexample): the compatibility percent of
`/analyze-cv` and, via `qualityAvg`, the clarity/relevance/structure
scores of `/analyze-cv-quality`. -/
theorem aggregate_score_is_truncated_mean :
    (∀ (P : Providers) (cvRaw jobText : List Char) partials parts s,
      cvRaw ≠ [] → pyStrip jobText ≠ [] →
      collectChunks P (cvPairs cvRaw jobText) = .ok partials → partials ≠ [] →
      pyJoinParts (partials.map (fun x => x.2)) = .ok parts →
      pySum (partials.map (fun x => x.1)) = .ok s →
      analyze_cv P cvRaw jobText =
        .ok (Int.tdiv s (partials.length : Int), resFinalOf P parts)) ∧
    (∀ (xs : List JsonValue) (s : Int), xs ≠ [] → pySum xs = .ok s →
      qualityAvg xs = .ok (Int.tdiv s (xs.length : Int))) := by
  constructor
  · intro P cvRaw jobText partials parts s hcv hjob hC hne hjp hsum
    exact analyze_cv_unfold P cvRaw jobText partials parts s hcv hjob hC hne hjp hsum
  · intro xs s hxs hsum
    have hie : xs.isEmpty = false := by simp [List.isEmpty_iff, hxs]
    simp [qualityAvg, hie, hsum, Except.map]

/-- Witness for the amended C4 at a one-chunk input whose single provider
response fails extraction (so the default score 70 is aggregated). -/
theorem aggregate_score_is_truncated_mean_wit :
    analyze_cv ⟨none, none⟩ (('a') :: []) (('b') :: []) =
      .ok (Int.tdiv 70 1, resFinalOf ⟨none, none⟩ [defaultChunkFeedback]) ∧
      qualityAvg [JsonValue.num 70] = .ok (Int.tdiv 70 1) := by
  obtain ⟨h1, h2⟩ := aggregate_score_is_truncated_mean
  constructor
  · have := h1 ⟨none, none⟩ (('a') :: []) (('b') :: [])
      [(JsonValue.num 70, JsonValue.str defaultChunkFeedback)] [defaultChunkFeedback] 70
      (by decide) (by decide) (by rfl) (by simp) (by rfl) (by rfl)
    simpa using this
  · have := h2 [JsonValue.num 70] 70 (by simp) (by rfl)
    simpa using this

theorem joinWith_nl2_ne_nil (parts : List (List Char)) (h : ∃ p ∈ parts, p ≠ []) :
    joinWith nl2 parts ≠ [] := by
  obtain ⟨p, hp, hpne⟩ := h
  cases parts with
  | nil => simp at hp
  | cons x r =>
    cases r with
    | nil =>
      simp at hp
      subst hp
      simpa [joinWith] using hpne
    | cons y r' =>
      simp only [joinWith]
      intro hcon
      rw [show nl2 = ('\n') :: ('\n') :: [] from rfl] at hcon
      simp at hcon

/-- C6 (amended): a chunk whose extraction fails is replaced by the
neutral default `(70, generic feedback)` and never aborts the
aggregation; when the final rewrite output strips to empty the raw
concatenation of per-chunk feedback is returned verbatim; and for every
input with non-empty cleaned CV text the route returns a success payload
(with non-empty feedback whenever some per-chunk feedback is non-empty) —
PROVIDED every chunk evaluation is well-shaped.  The proviso is forced by
the counterexample: a truthy non-container extraction result (such as the
text `"5"`) raises `TypeError` inside the membership check and aborts the
whole aggregation even when another chunk's response is usable. -/
theorem aggregation_defaults_and_fallback :
    (∀ raw, safe_json raw = none →
      chunkParse raw = .ok (.num 70, .str defaultChunkFeedback)) ∧
    (∀ (P : Providers) (cvRaw jobText : List Char) partials parts s,
      cvRaw ≠ [] → clean_text cvRaw ≠ [] → pyStrip jobText ≠ [] →
      collectChunks P (cvPairs cvRaw jobText) = .ok partials →
      pyJoinParts (partials.map (fun x => x.2)) = .ok parts →
      pySum (partials.map (fun x => x.1)) = .ok s →
      partials ≠ [] ∧
      analyze_cv P cvRaw jobText =
        .ok (Int.tdiv s (partials.length : Int), resFinalOf P parts) ∧
      (pyStrip (gemini_text P (final_prompt (joinWith nl2 parts))) = [] →
        resFinalOf P parts = joinWith nl2 parts) ∧
      ((∃ p ∈ parts, p ≠ []) → resFinalOf P parts ≠ [])) := by
  constructor
  · intro raw h
    simp [chunkParse, h]
  · intro P cvRaw jobText partials parts s hcv hclean hjob hC hjp hsum
    have hne : partials ≠ [] := by
      have hlen := collectChunks_length P _ _ hC
      have hpnn : cvPairs cvRaw jobText ≠ [] :=
        zipLongest_ne_nil _ _ (chunk_text_ne_nil _ 3000 hclean)
      intro hnil
      rw [hnil] at hlen
      simp only [List.length_nil] at hlen
      exact hpnn (List.eq_nil_of_length_eq_zero hlen.symm)
    refine ⟨hne,
      analyze_cv_unfold P cvRaw jobText partials parts s hcv hjob hC hne hjp hsum, ?_, ?_⟩
    · intro hstrip
      simp [resFinalOf, hstrip]
    · intro hex
      have hjn := joinWith_nl2_ne_nil parts hex
      simp only [resFinalOf]
      by_cases hstrip : pyStrip (gemini_text P (final_prompt (joinWith nl2 parts))) = []
      · simpa [hstrip] using hjn
      · simp only [if_neg hstrip]
        intro hr0
        rw [hr0] at hstrip
        exact hstrip rfl

/-- Witness for the amended C6: one chunk, extraction fails (no provider),
so the default is aggregated and the raw concatenation survives. -/
theorem aggregation_defaults_and_fallback_wit :
    chunkParse [] = .ok (.num 70, .str defaultChunkFeedback) ∧
      analyze_cv ⟨none, none⟩ (('a') :: []) (('b') :: []) =
        .ok (Int.tdiv 70 1, resFinalOf ⟨none, none⟩ [defaultChunkFeedback]) ∧
      resFinalOf ⟨none, none⟩ [defaultChunkFeedback] ≠ [] := by
  obtain ⟨h1, h2⟩ := aggregation_defaults_and_fallback
  have h3 := h2 ⟨none, none⟩ (('a') :: []) (('b') :: [])
    [(JsonValue.num 70, JsonValue.str defaultChunkFeedback)] [defaultChunkFeedback] 70
    (by decide) (by decide) (by decide) (by rfl) (by rfl) (by rfl)
  refine ⟨h1 [] (by rfl), ?_, ?_⟩
  · simpa using h3.2.1
  · exact h3.2.2.2 ⟨defaultChunkFeedback, by simp, by decide⟩

theorem replicate_ne_nil' (n : Nat) (c : Char) (h : n ≠ 0) : List.replicate n c ≠ [] := by
  intro he
  have hlen := congrArg List.length he
  rw [List.length_replicate] at hlen
  simp only [List.length_nil] at hlen
  exact h hlen

theorem mem_prompt_chunk_cv {ch : Char} (cvC jobC : List Char) (h : ch ∈ cvC) :
    ch ∈ prompt_chunk cvC jobC := by
  unfold prompt_chunk
  exact List.mem_append.mpr (Or.inl (List.mem_append.mpr (Or.inl
    (List.mem_append.mpr (Or.inl (List.mem_append.mpr (Or.inr h)))))))

theorem not_mem_prompt_chunk {ch : Char} (cvC jobC : List Char)
    (h1 : ch ∉ promptChunkPre) (h2 : ch ∉ cvC) (h3 : ch ∉ promptChunkMid)
    (h4 : ch ∉ jobC) (h5 : ch ∉ (("\n").toList)) :
    ch ∉ prompt_chunk cvC jobC := by
  intro hmem
  unfold prompt_chunk at hmem
  rcases List.mem_append.mp hmem with hm4 | h
  case inr => exact h5 h
  rcases List.mem_append.mp hm4 with hm3 | h
  case inr => exact h4 h
  rcases List.mem_append.mp hm3 with hm2 | h
  case inr => exact h3 h
  rcases List.mem_append.mp hm2 with h | h
  · exact h1 h
  · exact h2 h

theorem chunk_text_cvC4 :
    chunk_text cvC4 3000 =
      [List.replicate 3000 'X', List.replicate 3000 'Y', List.replicate 10 'Z'] := by
  rw [show cvC4 =
      List.replicate 3000 'X' ++ (List.replicate 3000 'Y' ++ List.replicate 10 'Z') from rfl]
  rw [chunk_text_cons_of_length _ _ 3000 (List.length_replicate _ _) (by norm_num)]
  rw [chunk_text_cons_of_length _ _ 3000 (List.length_replicate _ _) (by norm_num)]
  rw [chunk_text_single _ 3000 (replicate_ne_nil' _ _ (by norm_num))
    (by rw [List.length_replicate]; norm_num)]

theorem clean_text_cvC4 : clean_text cvC4 = cvC4 := by
  apply clean_text_id_plain
  intro c hc
  rcases List.mem_append.mp hc with h | hm
  · rw [(List.mem_replicate.mp h).2]
    exact ⟨by decide, by decide⟩
  rcases List.mem_append.mp hm with h | h
  · rw [(List.mem_replicate.mp h).2]
    exact ⟨by decide, by decide⟩
  · rw [(List.mem_replicate.mp h).2]
    exact ⟨by decide, by decide⟩

theorem cvPairs_cvC4 :
    cvPairs cvC4 (('j') :: []) =
      [((List.replicate 3000 'X'), (('j') :: [])),
       ((List.replicate 3000 'Y'), ([])), ((List.replicate 10 'Z'), ([]))] := by
  unfold cvPairs
  rw [clean_text_cvC4, chunk_text_cvC4]
  rw [show chunk_text (clean_text (pyStrip (('j') :: []))) 3000 = [(('j') :: [])] from rfl]
  rfl

theorem gemini_text_PC4_chunk0 :
    gemini_text PC4 (prompt_chunk (List.replicate 3000 'X') (('j') :: [])) = respScore0 := by
  have hb : bC4 (prompt_chunk (List.replicate 3000 'X') (('j') :: [])) = .ok respScore0 := by
    simp only [bC4]
    rw [if_pos (mem_prompt_chunk_cv _ _ (List.mem_replicate.mpr ⟨by norm_num, rfl⟩))]
  simp only [gemini_text, PC4]
  rw [hb]
  rfl

theorem gemini_text_PC4_chunk1 :
    gemini_text PC4 (prompt_chunk (List.replicate 3000 'Y') ([])) = respScore1 := by
  have hnx : ('X') ∉ prompt_chunk (List.replicate 3000 'Y') ([]) :=
    not_mem_prompt_chunk _ _ (by decide)
      (fun h => absurd (List.mem_replicate.mp h).2 (by decide)) (by decide)
      (List.not_mem_nil _) (by decide)
  have hb : bC4 (prompt_chunk (List.replicate 3000 'Y') ([])) = .ok respScore1 := by
    simp only [bC4]
    rw [if_neg hnx,
      if_pos (mem_prompt_chunk_cv _ _ (List.mem_replicate.mpr ⟨by norm_num, rfl⟩))]
  simp only [gemini_text, PC4]
  rw [hb]
  rfl

theorem gemini_text_PC4_chunk2 :
    gemini_text PC4 (prompt_chunk (List.replicate 10 'Z') ([])) = respScore1 := by
  have hnx : ('X') ∉ prompt_chunk (List.replicate 10 'Z') ([]) :=
    not_mem_prompt_chunk _ _ (by decide)
      (fun h => absurd (List.mem_replicate.mp h).2 (by decide)) (by decide)
      (List.not_mem_nil _) (by decide)
  have hny : ('Y') ∉ prompt_chunk (List.replicate 10 'Z') ([]) :=
    not_mem_prompt_chunk _ _ (by decide)
      (fun h => absurd (List.mem_replicate.mp h).2 (by decide)) (by decide)
      (List.not_mem_nil _) (by decide)
  have hb : bC4 (prompt_chunk (List.replicate 10 'Z') ([])) = .ok respScore1 := by
    simp only [bC4]
    rw [if_neg hnx, if_neg hny,
      if_pos (mem_prompt_chunk_cv _ _ (List.mem_replicate.mpr ⟨by norm_num, rfl⟩))]
  simp only [gemini_text, PC4]
  rw [hb]
  rfl

theorem collectChunks_PC4 :
    collectChunks PC4 (cvPairs cvC4 (('j') :: [])) =
      .ok [(JsonValue.num 0, JsonValue.str (('f') :: [])),
           (JsonValue.num 1, JsonValue.str (('f') :: [])),
           (JsonValue.num 1, JsonValue.str (('f') :: []))] := by
  rw [cvPairs_cvC4]
  simp only [collectChunks, chunkEval]
  rw [gemini_text_PC4_chunk0, gemini_text_PC4_chunk1, gemini_text_PC4_chunk2]
  rfl

/-- C4 (counterexample): three chunks whose parsed compatibility scores
are 0, 1, 1.  The arithmetic mean is 2/3, whose nearest integer is 1, but
`/analyze-cv` aggregates `int(2/3) = 0` — truncation, not rounding to
nearest. -/
theorem aggregate_truncates_not_rounds_cex :
    collectChunks PC4 (cvPairs cvC4 (('j') :: [])) =
      .ok [(JsonValue.num 0, JsonValue.str (('f') :: [])),
           (JsonValue.num 1, JsonValue.str (('f') :: [])),
           (JsonValue.num 1, JsonValue.str (('f') :: []))] ∧
      analyze_cv PC4 cvC4 (('j') :: []) = .ok (0, respRewrite) ∧
      roundNearestMean (0 + 1 + 1) 3 = 1 ∧ (0 : Int) ≠ 1 := by
  refine ⟨collectChunks_PC4, ?_, by decide, by decide⟩
  have h := analyze_cv_unfold PC4 cvC4 (('j') :: [])
    [(JsonValue.num 0, JsonValue.str (('f') :: [])),
     (JsonValue.num 1, JsonValue.str (('f') :: [])),
     (JsonValue.num 1, JsonValue.str (('f') :: []))]
    [(('f') :: []), (('f') :: []), (('f') :: [])] 2
    (fun hc => replicate_ne_nil' 3000 'X' (by norm_num) (List.append_eq_nil.mp hc).1)
    (by decide) collectChunks_PC4 (by simp) (by rfl) (by rfl)
  rw [h]
  rw [show resFinalOf PC4 [(('f') :: []), (('f') :: []), (('f') :: [])] = respRewrite from rfl]
  rfl

theorem clean_text_cvC6 : clean_text cvC6 = cvC6 := by
  apply clean_text_id_plain
  intro c hc
  rcases List.mem_append.mp hc with h | h
  · rw [(List.mem_replicate.mp h).2]
    exact ⟨by decide, by decide⟩
  · rw [(List.mem_replicate.mp h).2]
    exact ⟨by decide, by decide⟩

theorem chunk_text_cvC6 :
    chunk_text cvC6 3000 = [List.replicate 3000 'X', List.replicate 10 'Y'] := by
  rw [show cvC6 = List.replicate 3000 'X' ++ List.replicate 10 'Y' from rfl]
  rw [chunk_text_cons_of_length _ _ 3000 (List.length_replicate _ _) (by norm_num)]
  rw [chunk_text_single _ 3000 (replicate_ne_nil' _ _ (by norm_num))
    (by rw [List.length_replicate]; norm_num)]

theorem cvPairs_cvC6 :
    cvPairs cvC6 (('j') :: []) =
      [((List.replicate 3000 'X'), (('j') :: [])), ((List.replicate 10 'Y'), ([]))] := by
  unfold cvPairs
  rw [clean_text_cvC6, chunk_text_cvC6]
  rw [show chunk_text (clean_text (pyStrip (('j') :: []))) 3000 = [(('j') :: [])] from rfl]
  rfl

/-- C6 (counterexample): the first chunk's provider response is the bare
text `"5"` — `safe_json` succeeds with the truthy non-container value 5,
the `"compatibility_percent" not in parsed_chunk` check then raises
`TypeError`, and the whole `/analyze-cv` aggregation aborts with a 500 —
even though the second chunk's response is perfectly usable and the input
is non-empty.  So a bad chunk can fail the entire request. -/
theorem aggregation_aborts_on_nonobject_cex :
    analyze_cv PC6 cvC6 (('j') :: []) = .error RouteErr.internal ∧
      chunkEval PC6 ((List.replicate 10 'Y'), ([])) =
        .ok (JsonValue.num 50, JsonValue.str (('o') :: ('k') :: [])) ∧
      safe_json (("5").toList) = some (JsonValue.num 5) := by
  have hg0 : gemini_text PC6 (prompt_chunk (List.replicate 3000 'X') (('j') :: [])) =
      ("5").toList := by
    have hb : bC6 (prompt_chunk (List.replicate 3000 'X') (('j') :: [])) =
        .ok (("5").toList) := by
      simp only [bC6]
      rw [if_pos (mem_prompt_chunk_cv _ _ (List.mem_replicate.mpr ⟨by norm_num, rfl⟩))]
    simp only [gemini_text, PC6]
    rw [hb]
    rfl
  have hg1 : gemini_text PC6 (prompt_chunk (List.replicate 10 'Y') ([])) = respScore50 := by
    have hnx : ('X') ∉ prompt_chunk (List.replicate 10 'Y') ([]) :=
      not_mem_prompt_chunk _ _ (by decide)
        (fun h => absurd (List.mem_replicate.mp h).2 (by decide)) (by decide)
        (List.not_mem_nil _) (by decide)
    have hb : bC6 (prompt_chunk (List.replicate 10 'Y') ([])) = .ok respScore50 := by
      simp only [bC6]
      rw [if_neg hnx]
    simp only [gemini_text, PC6]
    rw [hb]
    rfl
  have hcc : collectChunks PC6 (cvPairs cvC6 (('j') :: [])) = .error () := by
    rw [cvPairs_cvC6]
    simp only [collectChunks, chunkEval]
    rw [hg0]
    rfl
  refine ⟨?_, ?_, by rfl⟩
  · have hcv6 : cvC6 ≠ [] := by
      rw [show cvC6 = List.replicate 3000 'X' ++ List.replicate 10 'Y' from rfl]
      intro hc
      exact replicate_ne_nil' 3000 'X' (by norm_num) (List.append_eq_nil.mp hc).1
    unfold analyze_cv
    rw [if_neg (not_or.mpr ⟨hcv6, (by decide : ¬ pyStrip (('j') :: []) = [])⟩)]
    rw [hcc]
  · simp only [chunkEval]
    rw [hg1]
    rfl

/-! ## Fenced-JSON round trip: induction principle and digit lemmas -/

theorem JsonValue.strongInd (P : JsonValue → Prop)
    (h1 : P .null) (h2 : ∀ b, P (.bool b)) (h3 : ∀ n, P (.num n)) (h4 : ∀ s, P (.str s))
    (h5 : ∀ xs, (∀ x ∈ xs, P x) → P (.arr xs))
    (h6 : ∀ kvs, (∀ kv ∈ kvs, P kv.2) → P (.obj kvs)) : ∀ v, P v := by
  have main : ∀ n v, sizeOf v ≤ n → P v := by
    intro n
    induction n with
    | zero =>
      intro v hv
      cases v <;> simp at hv
    | succ n ih =>
      intro v hv
      cases v with
      | null => exact h1
      | bool b => exact h2 b
      | num m => exact h3 m
      | str s => exact h4 s
      | arr xs =>
        refine h5 xs fun x hx => ih x ?_
        have hlt := List.sizeOf_lt_of_mem hx
        have hspec : sizeOf (JsonValue.arr xs) = 1 + sizeOf xs := by simp
        omega
      | obj kvs =>
        refine h6 kvs fun kv hkv => ih kv.2 ?_
        have hlt := List.sizeOf_lt_of_mem hkv
        have hspec : sizeOf (JsonValue.obj kvs) = 1 + sizeOf kvs := by simp
        have hkv2 : sizeOf kv.2 < sizeOf kv := by
          obtain ⟨k, w⟩ := kv
          simp
        omega
  exact fun v => main (sizeOf v) v le_rfl

theorem digitVal_digitChar {m : Nat} (h : m < 10) : digitVal (digitChar m) = m := by
  interval_cases m <;> decide

theorem isDigit_digitChar {m : Nat} (h : m < 10) : isDigit (digitChar m) = true := by
  interval_cases m <;> decide

theorem digitChar_eq_zero_iff {m : Nat} (h : m < 10) : digitChar m = '0' ↔ m = 0 := by
  interval_cases m <;> decide

theorem natToCharsAux_spec : ∀ fuel m acc, m < fuel →
    ∃ ds, natToCharsAux fuel m acc = ds ++ acc ∧ ds ≠ [] ∧
      (∀ c ∈ ds, isDigit c = true) ∧ digitsVal ds 0 = m ∧
      (ds.head? = some '0' → m = 0) ∧ (m < 10 → ds = [digitChar m]) := by
  intro fuel
  induction fuel with
  | zero => intro m acc h; omega
  | succ f ih =>
    intro m acc h
    by_cases hm : m < 10
    · refine ⟨[digitChar m], by simp [natToCharsAux, hm], by simp, ?_, ?_, ?_, fun _ => rfl⟩
      · intro c hc
        simp at hc
        subst hc
        exact isDigit_digitChar hm
      · simp [digitsVal, digitVal_digitChar hm]
      · intro hh
        simp at hh
        exact (digitChar_eq_zero_iff hm).mp hh
    · obtain ⟨ds', he, hne, hdig, hval, hz, _⟩ :=
        ih (m / 10) (digitChar (m % 10) :: acc) (by omega)
      refine ⟨ds' ++ [digitChar (m % 10)], ?_, by simp, ?_, ?_, ?_, fun hc => absurd hc hm⟩
      · rw [show natToCharsAux (f + 1) m acc =
            natToCharsAux f (m / 10) (digitChar (m % 10) :: acc) from by
          simp [natToCharsAux, hm]]
        rw [he]
        simp
      · intro c hc
        rcases List.mem_append.mp hc with hcc | hcc
        · exact hdig c hcc
        · simp at hcc
          subst hcc
          exact isDigit_digitChar (Nat.mod_lt _ (by norm_num))
      · have hfold : digitsVal (ds' ++ [digitChar (m % 10)]) 0 =
            (digitsVal ds' 0) * 10 + digitVal (digitChar (m % 10)) := by
          simp [digitsVal, List.foldl_append]
        rw [hfold, hval, digitVal_digitChar (Nat.mod_lt _ (by norm_num))]
        omega
      · intro hh
        cases hds : ds' with
        | nil => exact absurd hds hne
        | cons c t =>
          rw [hds] at hh
          simp only [List.cons_append, List.head?_cons, Option.some.injEq] at hh
          have hdiv : m / 10 = 0 := hz (by rw [hds, hh]; rfl)
          omega

theorem parseDigitsAux_spec : ∀ ds rest acc, (∀ c ∈ ds, isDigit c = true) →
    (∀ c t, rest = c :: t → isDigit c = false) →
    parseDigitsAux (ds ++ rest) acc = (digitsVal ds acc, rest) := by
  intro ds
  induction ds with
  | nil =>
    intro rest acc _ hrest
    cases rest with
    | nil => rfl
    | cons c t =>
      simp [parseDigitsAux, hrest c t rfl, digitsVal]
  | cons d ds' ih =>
    intro rest acc hds hrest
    simp only [List.cons_append, parseDigitsAux]
    rw [if_pos (hds d (by simp))]
    simp only [List.append_eq]
    rw [ih rest _ (fun c hc => hds c (by simp [hc])) hrest]
    rfl

theorem parseNat_natToChars (m : Nat) (rest : List Char)
    (hrest : ∀ c t, rest = c :: t → isDigit c = false) :
    parseNat (natToChars m ++ rest) = some (m, rest) := by
  obtain ⟨ds, he, hne, hdig, hval, hz, hsingle⟩ := natToCharsAux_spec (m + 1) m [] (by omega)
  have hnat : natToChars m = ds := by simpa [natToChars] using he
  rw [hnat]
  cases ds with
  | nil => exact absurd rfl hne
  | cons d ds' =>
    simp only [List.cons_append, parseNat]
    by_cases hd0 : d = '0'
    · subst hd0
      have hm0 : m = 0 := hz rfl
      have hds' : ds' = [] := by
        have hs := hsingle (by omega)
        rw [hm0] at hs
        simpa using congrArg List.tail hs
      subst hds'
      subst hm0
      cases rest with
      | nil => rfl
      | cons c t =>
        have hc := hrest c t rfl
        simp [parseNat, hc]
    · rw [if_neg hd0, if_pos (hdig d (by simp))]
      rw [parseDigitsAux_spec ds' rest _ (fun c hc => hdig c (by simp [hc])) hrest]
      have hv : digitsVal ds' (digitVal d) = m := by simpa [digitsVal] using hval
      rw [hv]

theorem stopper_head {rest : List Char} (h : stopper rest) :
    ∀ c t, rest = c :: t → isDigit c = false ∧ c ≠ '.' ∧ c ≠ 'e' ∧ c ≠ 'E' := by
  intro c t he
  rcases h with h | ⟨c', t', he', hc⟩
  · rw [he] at h
    cases h
  · rw [he] at he'
    have h1 : c = c' := by injection he'
    subst h1
    rcases hc with rfl | rfl | rfl
    · exact ⟨by decide, by decide, by decide, by decide⟩
    · exact ⟨by decide, by decide, by decide, by decide⟩
    · exact ⟨by decide, by decide, by decide, by decide⟩

theorem natToChars_head_digit (m : Nat) :
    ∃ d t, natToChars m = d :: t ∧ isDigit d = true := by
  obtain ⟨ds, he, hne, hdig, _, _, _⟩ := natToCharsAux_spec (m + 1) m [] (by omega)
  have hnat : natToChars m = ds := by simpa [natToChars] using he
  cases ds with
  | nil => exact absurd rfl hne
  | cons d t => exact ⟨d, t, hnat, hdig d (by simp)⟩

theorem parseNumber_natToChars (m : Nat) (rest : List Char) (hrest : stopper rest) :
    parseNumber (natToChars m ++ rest) = some (.num (m : Int), rest) := by
  have hdnot : ∀ c t, rest = c :: t → isDigit c = false :=
    fun c t h => (stopper_head hrest c t h).1
  obtain ⟨d, t, hds, hdig⟩ := natToChars_head_digit m
  rw [parseNumber.eq_def]
  split
  · rename_i r' heq
    exfalso
    rw [hds] at heq
    have : d = '-' := by injection heq
    rw [this] at hdig
    exact absurd hdig (by decide)
  · rw [parseNat_natToChars _ _ hdnot]
    cases hrc : rest with
    | nil => rfl
    | cons c t' =>
      obtain ⟨hd, h1, h2, h3⟩ := stopper_head hrest c t' hrc
      simp only [Option.some_bind]
      rw [if_neg (by simp [h1, h2, h3])]

theorem parseNumber_intToChars (n : Int) (rest : List Char) (hrest : stopper rest) :
    parseNumber (intToChars n ++ rest) = some (.num n, rest) := by
  by_cases hn : n < 0
  · rw [show intToChars n = '-' :: natToChars n.natAbs from by simp [intToChars, hn]]
    have hdnot : ∀ c t, rest = c :: t → isDigit c = false :=
      fun c t h => (stopper_head hrest c t h).1
    simp only [List.cons_append, parseNumber]
    rw [parseNat_natToChars _ _ hdnot]
    have habs : -((n.natAbs : Nat) : Int) = n := by omega
    cases hrc : rest with
    | nil => exact congrArg (fun z => some (JsonValue.num z, ([] : List Char))) habs
    | cons c t' =>
      obtain ⟨hd, h1, h2, h3⟩ := stopper_head hrest c t' hrc
      simp only [Option.some_bind]
      rw [if_neg (by simp [h1, h2, h3])]
      exact congrArg (fun z => some (JsonValue.num z, c :: t')) habs
  · rw [show intToChars n = natToChars n.natAbs from by simp [intToChars, hn]]
    have habs : ((n.natAbs : Nat) : Int) = n := by omega
    rw [parseNumber_natToChars _ _ hrest, habs]

theorem parseStrBody_render (s : List Char) (rest : List Char)
    (hs : ∀ c ∈ s, isCtrl c = false) :
    parseStrBody ((s.map escChar).flatten ++ '"' :: rest) = some (s, rest) := by
  induction s with
  | nil => rfl
  | cons c s' ih =>
    have hc := hs c (by simp)
    have hrec := ih (fun x hx => hs x (by simp [hx]))
    simp only [List.map_cons, List.flatten_cons, List.append_assoc]
    by_cases hq : c = '"'
    · subst hq
      rw [show escChar '"' = ('\\') :: ('"') :: [] from rfl]
      simp only [List.cons_append, List.nil_append]
      rw [show parseStrBody (('\\') :: ('"') ::
          ((List.map escChar s').flatten ++ ('"') :: rest)) =
        (escDecode '"').bind fun ch =>
          (parseStrBody ((List.map escChar s').flatten ++ ('"') :: rest)).map
            fun r => (ch :: r.1, r.2) from rfl]
      rw [hrec]
      rfl
    · by_cases hb : c = '\\'
      · subst hb
        rw [show escChar '\\' = ('\\') :: ('\\') :: [] from rfl]
        simp only [List.cons_append, List.nil_append]
        rw [show parseStrBody (('\\') :: ('\\') ::
            ((List.map escChar s').flatten ++ ('"') :: rest)) =
          (escDecode '\\').bind fun ch =>
            (parseStrBody ((List.map escChar s').flatten ++ ('"') :: rest)).map
              fun r => (ch :: r.1, r.2) from rfl]
        rw [hrec]
        rfl
      · rw [show escChar c = [c] from by simp [escChar, hq, hb]]
        simp only [List.singleton_append]
        rw [parseStrBody.eq_def]
        split
        · rename_i heqm
          cases heqm
        · rename_i heqm
          exfalso
          have hh : c = '"' := by injection heqm
          exact hq hh
        · rename_i heqm
          exfalso
          have hh : c = '\\' := by injection heqm
          exact hb hh
        · rename_i c' r' hne1 hne2 heqm
          have hcc : c = c' := by injection heqm
          have hrr : ((List.map escChar s').flatten ++ ('"') :: rest) = r' := by
            injection heqm
          subst hcc
          rw [← hrr]
          have hnc : ¬ c.toNat ≤ 31 := by simpa [isCtrl] using hc
          rw [if_neg (by omega)]
          rw [hrec]
          rfl

theorem goodList_mem {xs : List JsonValue} {x : JsonValue}
    (h : goodList xs = true) (hx : x ∈ xs) : goodJson x = true := by
  induction xs with
  | nil => cases hx
  | cons y ys ih =>
    rw [goodList] at h
    simp only [Bool.and_eq_true] at h
    rcases List.mem_cons.mp hx with rfl | hx'
    · exact h.1
    · exact ih h.2 hx'

theorem goodFields_mem {kvs : List (List Char × JsonValue)} {kv : List Char × JsonValue}
    (h : goodFields kvs = true) (hkv : kv ∈ kvs) :
    goodStr kv.1 = true ∧ goodJson kv.2 = true := by
  induction kvs with
  | nil => cases hkv
  | cons p ps ih =>
    rw [goodFields] at h
    simp only [Bool.and_eq_true] at h
    rcases List.mem_cons.mp hkv with rfl | hkv'
    · exact ⟨h.1.1, h.1.2⟩
    · exact ih h.2 hkv'

theorem renderElems_cons_eq (x : JsonValue) (xs : List JsonValue) :
    renderElems (x :: xs) = render x ++ sepElems xs := by
  cases xs with
  | nil => simp [renderElems, sepElems]
  | cons y r => rfl

theorem renderFields_cons_eq (kv : List Char × JsonValue)
    (kvs : List (List Char × JsonValue)) :
    renderFields (kv :: kvs) = pairRender kv ++ sepFields kvs := by
  cases kvs with
  | nil => simp [renderFields, sepFields, pairRender]
  | cons p r => rfl

theorem mem_sepElems {c : Char} {xs : List JsonValue} (h : c ∈ sepElems xs) :
    c = ',' ∨ c ∈ renderElems xs := by
  cases xs with
  | nil => cases h
  | cons y r =>
    rcases List.mem_cons.mp h with rfl | h
    · exact Or.inl rfl
    · exact Or.inr h

theorem mem_sepFields {c : Char} {kvs : List (List Char × JsonValue)}
    (h : c ∈ sepFields kvs) : c = ',' ∨ c ∈ renderFields kvs := by
  cases kvs with
  | nil => cases h
  | cons p r =>
    rcases List.mem_cons.mp h with rfl | h
    · exact Or.inl rfl
    · exact Or.inr h

theorem mem_renderElems {c : Char} : ∀ {xs : List JsonValue}, c ∈ renderElems xs →
    c = ',' ∨ ∃ x ∈ xs, c ∈ render x := by
  intro xs
  induction xs with
  | nil => intro h; cases h
  | cons x xs ih =>
    intro h
    rw [renderElems_cons_eq] at h
    rcases List.mem_append.mp h with h | h
    · exact Or.inr ⟨x, by simp, h⟩
    · rcases mem_sepElems h with rfl | h
      · exact Or.inl rfl
      · rcases ih h with h | ⟨y, hy, hc⟩
        · exact Or.inl h
        · exact Or.inr ⟨y, by simp [hy], hc⟩

theorem mem_renderFields {c : Char} : ∀ {kvs : List (List Char × JsonValue)},
    c ∈ renderFields kvs →
    c = ',' ∨ c = ':' ∨ ∃ kv ∈ kvs, (c ∈ renderStr kv.1 ∨ c ∈ render kv.2) := by
  intro kvs
  induction kvs with
  | nil => intro h; cases h
  | cons kv kvs ih =>
    intro h
    rw [renderFields_cons_eq] at h
    rcases List.mem_append.mp h with h | h
    · have h' : c ∈ renderStr kv.1 ∨ c = ':' ∨ c ∈ render kv.2 := by
        simpa [pairRender] using h
      rcases h' with h | rfl | h
      · exact Or.inr (Or.inr ⟨kv, by simp, Or.inl h⟩)
      · exact Or.inr (Or.inl rfl)
      · exact Or.inr (Or.inr ⟨kv, by simp, Or.inr h⟩)
    · rcases mem_sepFields h with rfl | h
      · exact Or.inl rfl
      · rcases ih h with h | h | ⟨p, hp, hc⟩
        · exact Or.inl h
        · exact Or.inr (Or.inl h)
        · exact Or.inr (Or.inr ⟨p, by simp [hp], hc⟩)

theorem digit_not_ws {c : Char} (h : isDigit c = true) : isPyWs c = false := by
  have h' : 48 ≤ c.toNat ∧ c.toNat ≤ 57 := by simpa [isDigit] using h
  simp only [isPyWs, decide_eq_false_iff_not]
  omega

theorem intToChars_chars (n : Int) :
    ∀ c ∈ intToChars n, c = '-' ∨ isDigit c = true := by
  intro c hc
  unfold intToChars at hc
  by_cases hn : n < 0
  · rw [if_pos hn] at hc
    rcases List.mem_cons.mp hc with rfl | hc
    · exact Or.inl rfl
    · obtain ⟨ds, he, _, hdig, _, _, _⟩ := natToCharsAux_spec (n.natAbs + 1) n.natAbs [] (by omega)
      have hnat : natToChars n.natAbs = ds := by simpa [natToChars] using he
      rw [hnat] at hc
      exact Or.inr (hdig c hc)
  · rw [if_neg hn] at hc
    obtain ⟨ds, he, _, hdig, _, _, _⟩ := natToCharsAux_spec (n.natAbs + 1) n.natAbs [] (by omega)
    have hnat : natToChars n.natAbs = ds := by simpa [natToChars] using he
    rw [hnat] at hc
    exact Or.inr (hdig c hc)

theorem digit_not_jsonws {c : Char} (h : isDigit c = true) : isJsonWs c = false := by
  have h' : 48 ≤ c.toNat ∧ c.toNat ≤ 57 := by simpa [isDigit] using h
  simp only [isJsonWs, decide_eq_false_iff_not]
  omega

theorem getLast?_cons_of_ne_nil {a : Char} {l : List Char} (h : l ≠ []) :
    (a :: l).getLast? = l.getLast? := by
  cases l with
  | nil => exact absurd rfl h
  | cons b t => exact List.getLast?_cons_cons

theorem render_head (v : JsonValue) :
    ∃ c t, render v = c :: t ∧ isJsonWs c = false ∧ c ≠ ']' ∧ c ≠ '}' ∧ c ≠ ',' ∧
      c ≠ ' ' ∧ c ≠ ':' := by
  cases v with
  | null =>
    exact ⟨'n', _, rfl, by decide, by decide, by decide, by decide, by decide, by decide⟩
  | bool b =>
    cases b with
    | true =>
      exact ⟨'t', _, rfl, by decide, by decide, by decide, by decide, by decide, by decide⟩
    | false =>
      exact ⟨'f', _, rfl, by decide, by decide, by decide, by decide, by decide, by decide⟩
  | num n =>
    by_cases hn : n < 0
    · refine ⟨'-', natToChars n.natAbs, ?_, by decide, by decide, by decide, by decide,
        by decide, by decide⟩
      simp [render, intToChars, hn]
    · obtain ⟨d, t, hds, hdig⟩ := natToChars_head_digit n.natAbs
      refine ⟨d, t, ?_, digit_not_jsonws hdig,
        fun he => absurd (he ▸ hdig) (by decide), fun he => absurd (he ▸ hdig) (by decide),
        fun he => absurd (he ▸ hdig) (by decide), fun he => absurd (he ▸ hdig) (by decide),
        fun he => absurd (he ▸ hdig) (by decide)⟩
      simp [render, intToChars, hn, hds]
  | str s =>
    exact ⟨'"', _, rfl, by decide, by decide, by decide, by decide, by decide, by decide⟩
  | arr xs =>
    exact ⟨'[', _, rfl, by decide, by decide, by decide, by decide, by decide, by decide⟩
  | obj kvs =>
    exact ⟨'{', _, rfl, by decide, by decide, by decide, by decide, by decide, by decide⟩

theorem render_ne_nil (v : JsonValue) : render v ≠ [] := by
  obtain ⟨c, t, hct, _⟩ := render_head v
  rw [hct]
  simp

theorem render_last (v : JsonValue) : ∃ c, (render v).getLast? = some c ∧ c ≠ ' ' := by
  cases v with
  | null => exact ⟨'l', by decide, by decide⟩
  | bool b => cases b with
    | true => exact ⟨'e', by decide, by decide⟩
    | false => exact ⟨'e', by decide, by decide⟩
  | num n =>
    obtain ⟨ds, he, hne, hdig, _, _, _⟩ := natToCharsAux_spec (n.natAbs + 1) n.natAbs [] (by omega)
    have hnat : natToChars n.natAbs = ds := by simpa [natToChars] using he
    obtain ⟨c, hc⟩ : ∃ c, ds.getLast? = some c := by
      cases hdl : ds.getLast? with
      | none => exact absurd (List.getLast?_eq_none_iff.mp hdl) hne
      | some c => exact ⟨c, rfl⟩
    have hcmem : c ∈ ds := by
      obtain ⟨h', hx⟩ := List.mem_getLast?_eq_getLast (l := ds) (x := c) hc
      exact hx ▸ List.getLast_mem h'
    have hcd : isDigit c = true := hdig c hcmem
    have hcs : c ≠ ' ' := fun he' => absurd (he' ▸ hcd) (by decide)
    refine ⟨c, ?_, hcs⟩
    show (render (.num n)).getLast? = some c
    by_cases hn : n < 0
    · rw [show render (.num n) = '-' :: natToChars n.natAbs from by simp [render, intToChars, hn]]
      rw [getLast?_cons_of_ne_nil (by rw [hnat]; exact hne), hnat]
      exact hc
    · rw [show render (.num n) = natToChars n.natAbs from by simp [render, intToChars, hn]]
      rw [hnat]
      exact hc
  | str s =>
    refine ⟨'"', ?_, by decide⟩
    show (renderStr s).getLast? = some '"'
    rw [show renderStr s = ('"' :: (s.map escChar).flatten) ++ ['"'] from by
      simp [renderStr]]
    rw [List.getLast?_append_of_ne_nil _ (by simp)]
    rfl
  | arr xs =>
    refine ⟨']', ?_, by decide⟩
    show (render (.arr xs)).getLast? = some ']'
    rw [show render (.arr xs) = ('[' :: renderElems xs) ++ [']'] from by simp [render]]
    rw [List.getLast?_append_of_ne_nil _ (by simp)]
    rfl
  | obj kvs =>
    refine ⟨'}', ?_, by decide⟩
    show (render (.obj kvs)).getLast? = some '}'
    rw [show render (.obj kvs) = ('{' :: renderFields kvs) ++ ['}'] from by simp [render]]
    rw [List.getLast?_append_of_ne_nil _ (by simp)]
    rfl

theorem noAdjSp_append_of : ∀ (A B : List Char), noAdjSp A = true → noAdjSp B = true →
    (∀ a b, A.getLast? = some a → B.head? = some b → ¬(a = ' ' ∧ b = ' ')) →
    noAdjSp (A ++ B) = true := by
  intro A
  induction A with
  | nil => intro B _ hB _; exact hB
  | cons x A' ihA =>
    intro B hA hB hAB
    cases A' with
    | nil =>
      cases B with
      | nil => rfl
      | cons y B' =>
        simp only [List.cons_append, List.nil_append, noAdjSp, Bool.and_eq_true]
        refine ⟨?_, hB⟩
        exact (by simpa using not_and_or.mp (hAB x y rfl rfl))
    | cons x2 A'' =>
      simp only [List.cons_append, noAdjSp, Bool.and_eq_true] at hA ⊢
      refine ⟨hA.1, ?_⟩
      have hbd : ∀ a b, (x2 :: A'').getLast? = some a → B.head? = some b →
          ¬(a = ' ' ∧ b = ' ') := by
        intro a b ha hb
        exact hAB a b (by rw [List.getLast?_cons_cons]; exact ha) hb
      exact ihA B hA.2 hB hbd

theorem noAdjSp_cons_of_ne {c : Char} {L : List Char} (hc : c ≠ ' ')
    (hL : noAdjSp L = true) : noAdjSp (c :: L) = true := by
  cases L with
  | nil => rfl
  | cons z L' =>
    simp only [noAdjSp, Bool.and_eq_true]
    exact ⟨by simp [hc], hL⟩

theorem noAdjSp_escChar (c : Char) : noAdjSp (escChar c) = true := by
  by_cases h1 : c = '"'
  · subst h1; decide
  · by_cases h2 : c = '\\'
    · subst h2; decide
    · rw [show escChar c = [c] from by simp [escChar, h1, h2]]
      rfl

theorem escChar_getLast_space {c : Char} (h : (escChar c).getLast? = some ' ') : c = ' ' := by
  by_cases h1 : c = '"'
  · subst h1; exact absurd h (by decide)
  · by_cases h2 : c = '\\'
    · subst h2; exact absurd h (by decide)
    · rw [show escChar c = [c] from by simp [escChar, h1, h2]] at h
      simpa using h

theorem flatten_escChar_head {s : List Char}
    (h : ((s.map escChar).flatten).head? = some ' ') : s.head? = some ' ' := by
  cases s with
  | nil => simp at h
  | cons c s' =>
    simp only [List.map_cons, List.flatten_cons] at h
    by_cases h1 : c = '"'
    · subst h1
      rw [show escChar '"' = ('\\') :: ('"') :: [] from rfl] at h
      simp at h
    · by_cases h2 : c = '\\'
      · subst h2
        rw [show escChar '\\' = ('\\') :: ('\\') :: [] from rfl] at h
        simp at h
      · rw [show escChar c = [c] from by simp [escChar, h1, h2]] at h
        simp only [List.singleton_append, List.head?_cons] at h
        simp only [List.head?_cons]
        exact h

theorem noAdjSp_flatten_escChar : ∀ s : List Char, noAdjSp s = true →
    noAdjSp ((s.map escChar).flatten) = true := by
  intro s
  induction s with
  | nil => intro _; rfl
  | cons c s' ih =>
    intro h
    simp only [List.map_cons, List.flatten_cons]
    apply noAdjSp_append_of _ _ (noAdjSp_escChar c) (ih (noAdjSp_cons h))
    intro a b ha hb hab
    obtain ⟨ha', hb'⟩ := hab
    subst ha'
    subst hb'
    have hc : c = ' ' := escChar_getLast_space ha
    have hs' : s'.head? = some ' ' := flatten_escChar_head hb
    cases hss : s' with
    | nil => rw [hss] at hs'; simp at hs'
    | cons y t =>
      rw [hss] at hs' h
      have hy : y = ' ' := by simpa using hs'
      rw [hc, hy] at h
      simp [noAdjSp] at h

theorem mem_renderStr {c : Char} {s : List Char} (h : c ∈ renderStr s) :
    c = '"' ∨ c = '\\' ∨ c ∈ s := by
  rw [show renderStr s = '"' :: ((s.map escChar).flatten ++ ['"']) from rfl] at h
  rcases List.mem_cons.mp h with rfl | h2
  · exact Or.inl rfl
  rcases List.mem_append.mp h2 with h3 | h3
  · obtain ⟨l, hl, hcl⟩ := List.mem_flatten.mp h3
    obtain ⟨x, hx, rfl⟩ := List.mem_map.mp hl
    by_cases e1 : x = '"'
    · subst e1
      rcases (by simpa [escChar] using hcl : c = '\\' ∨ c = '"') with rfl | rfl
      · exact Or.inr (Or.inl rfl)
      · exact Or.inl rfl
    · by_cases e2 : x = '\\'
      · subst e2
        have : c = '\\' := by simpa [escChar] using hcl
        exact Or.inr (Or.inl this)
      · rw [show escChar x = [x] from by simp [escChar, e1, e2]] at hcl
        have : c = x := by simpa using hcl
        exact Or.inr (Or.inr (this ▸ hx))
  · exact Or.inl (by simpa using h3)

theorem goodStr_mem {s : List Char} (hg : goodStr s = true) :
    ∀ x ∈ s, isCtrl x = false ∧ (isPyWs x = true → x = ' ') := by
  intro x hx
  have h1 : s.all (fun c => !isCtrl c && (!isPyWs c || c = ' ')) = true := by
    simp only [goodStr, Bool.and_eq_true] at hg
    exact hg.1
  have h2 := List.all_eq_true.mp h1 x hx
  simp only [Bool.and_eq_true, Bool.or_eq_true, Bool.not_eq_true', decide_eq_true_eq] at h2
  refine ⟨h2.1, fun hws => ?_⟩
  rcases h2.2 with h3 | h3
  · exact absurd hws (by simp [h3])
  · exact h3

theorem goodStr_noAdjSp {s : List Char} (hg : goodStr s = true) : noAdjSp s = true := by
  simp only [goodStr, Bool.and_eq_true] at hg
  exact hg.2

theorem renderStr_good_chars {s : List Char} (hg : goodStr s = true) :
    ∀ c ∈ renderStr s, isCtrl c = false ∧ (isPyWs c = true → c = ' ') := by
  intro c hc
  rcases mem_renderStr hc with rfl | rfl | hmem
  · exact ⟨by decide, by decide⟩
  · exact ⟨by decide, by decide⟩
  · exact goodStr_mem hg c hmem

theorem renderStr_noAdjSp {s : List Char} (hg : goodStr s = true) :
    noAdjSp (renderStr s) = true := by
  have hbody := noAdjSp_flatten_escChar s (goodStr_noAdjSp hg)
  have h1 : noAdjSp ('"' :: (s.map escChar).flatten) = true :=
    noAdjSp_cons_of_ne (by decide) hbody
  have h2 : noAdjSp (('"' :: (s.map escChar).flatten) ++ ['"']) = true := by
    refine noAdjSp_append_of _ _ h1 rfl ?_
    intro a b _ hb hab
    have hb' : b = '"' := by simpa using hb.symm
    exact absurd (hb' ▸ hab.2) (by decide)
  rw [show renderStr s = ('"' :: (s.map escChar).flatten) ++ ['"'] from by simp [renderStr]]
  exact h2

theorem renderStr_last (s : List Char) : (renderStr s).getLast? = some '"' := by
  rw [show renderStr s = ('"' :: (s.map escChar).flatten) ++ ['"'] from by simp [renderStr]]
  rw [List.getLast?_append_of_ne_nil _ (by simp)]
  rfl

theorem pairRender_last (kv : List Char × JsonValue) :
    ∃ c, (pairRender kv).getLast? = some c ∧ c ≠ ' ' := by
  obtain ⟨c, hc, hcne⟩ := render_last kv.2
  refine ⟨c, ?_, hcne⟩
  unfold pairRender
  rw [List.getLast?_append_of_ne_nil _ (by simp)]
  rw [getLast?_cons_of_ne_nil (render_ne_nil kv.2)]
  exact hc

theorem pairRender_noAdjSp {kv : List Char × JsonValue} (hk : goodStr kv.1 = true)
    (hv : noAdjSp (render kv.2) = true) : noAdjSp (pairRender kv) = true := by
  unfold pairRender
  refine noAdjSp_append_of _ _ (renderStr_noAdjSp hk) (noAdjSp_cons_of_ne (by decide) hv) ?_
  intro a b _ hb hab
  have hb' : b = ':' := by simpa using hb.symm
  exact absurd (hb' ▸ hab.2) (by decide)

theorem noAdjSp_renderElems : ∀ xs : List JsonValue,
    (∀ x ∈ xs, noAdjSp (render x) = true) → noAdjSp (renderElems xs) = true := by
  intro xs
  induction xs with
  | nil => intro _; rfl
  | cons x xs ih =>
    intro h
    rw [renderElems_cons_eq]
    refine noAdjSp_append_of _ _ (h x (by simp)) ?_ ?_
    · cases xs with
      | nil => rfl
      | cons y r =>
        have hre := ih (fun z hz => h z (List.mem_cons_of_mem x hz))
        show noAdjSp (',' :: renderElems (y :: r)) = true
        exact noAdjSp_cons_of_ne (by decide) hre
    · intro a b ha hb hab
      obtain ⟨c, hc, hcne⟩ := render_last x
      have hac : a = c := by rw [ha] at hc; exact Option.some.inj hc
      exact absurd (hac ▸ hab.1) hcne

theorem noAdjSp_renderFields : ∀ kvs : List (List Char × JsonValue),
    (∀ kv ∈ kvs, goodStr kv.1 = true ∧ noAdjSp (render kv.2) = true) →
    noAdjSp (renderFields kvs) = true := by
  intro kvs
  induction kvs with
  | nil => intro _; rfl
  | cons kv kvs ih =>
    intro h
    rw [renderFields_cons_eq]
    refine noAdjSp_append_of _ _
      (pairRender_noAdjSp (h kv (by simp)).1 (h kv (by simp)).2) ?_ ?_
    · cases kvs with
      | nil => rfl
      | cons p r =>
        have hre := ih (fun z hz => h z (List.mem_cons_of_mem kv hz))
        show noAdjSp (',' :: renderFields (p :: r)) = true
        exact noAdjSp_cons_of_ne (by decide) hre
    · intro a b ha hb hab
      obtain ⟨c, hc, hcne⟩ := pairRender_last kv
      have hac : a = c := by rw [ha] at hc; exact Option.some.inj hc
      exact absurd (hac ▸ hab.1) hcne

theorem render_noAdjSp (v : JsonValue) (hg : goodJson v = true) :
    noAdjSp (render v) = true := by
  revert hg
  refine JsonValue.strongInd
    (fun v => goodJson v = true → noAdjSp (render v) = true) ?_ ?_ ?_ ?_ ?_ ?_ v
  · intro _; decide
  · intro b _; cases b <;> decide
  · intro n _
    apply noAdjSp_of_no_ws
    intro c hc
    rcases intToChars_chars n c (by simpa [render] using hc) with rfl | hd
    · decide
    · exact digit_not_ws hd
  · intro s hg
    exact renderStr_noAdjSp (by simpa [goodJson] using hg)
  · intro xs ih hg
    have hall : ∀ x ∈ xs, noAdjSp (render x) = true := fun x hx =>
      ih x hx (goodList_mem (by simpa [goodJson] using hg) hx)
    have hre := noAdjSp_renderElems xs hall
    rw [show render (.arr xs) = ('[' :: renderElems xs) ++ [']'] from by simp [render]]
    refine noAdjSp_append_of _ _ (noAdjSp_cons_of_ne (by decide) hre) rfl ?_
    intro a b _ hb hab
    have hb' : b = ']' := by simpa using hb.symm
    exact absurd (hb' ▸ hab.2) (by decide)
  · intro kvs ih hg
    have hall : ∀ kv ∈ kvs, goodStr kv.1 = true ∧ noAdjSp (render kv.2) = true := by
      intro kv hkv
      have h2 := goodFields_mem (by simpa [goodJson] using hg) hkv
      exact ⟨h2.1, ih kv hkv h2.2⟩
    have hre := noAdjSp_renderFields kvs hall
    rw [show render (.obj kvs) = ('{' :: renderFields kvs) ++ ['}'] from by simp [render]]
    refine noAdjSp_append_of _ _ (noAdjSp_cons_of_ne (by decide) hre) rfl ?_
    intro a b _ hb hab
    have hb' : b = '}' := by simpa using hb.symm
    exact absurd (hb' ▸ hab.2) (by decide)

theorem render_good_chars (v : JsonValue) (hg : goodJson v = true) :
    ∀ c ∈ render v, isCtrl c = false ∧ (isPyWs c = true → c = ' ') := by
  revert hg
  refine JsonValue.strongInd
    (fun v => goodJson v = true →
      ∀ c ∈ render v, isCtrl c = false ∧ (isPyWs c = true → c = ' ')) ?_ ?_ ?_ ?_ ?_ ?_ v
  · intro _ c hc
    fin_cases hc <;> exact ⟨by decide, by decide⟩
  · intro b _ c hc
    cases b
    · fin_cases hc <;> exact ⟨by decide, by decide⟩
    · fin_cases hc <;> exact ⟨by decide, by decide⟩
  · intro n _ c hc
    rcases intToChars_chars n c (by simpa [render] using hc) with rfl | hd
    · exact ⟨by decide, by decide⟩
    · refine ⟨?_, fun hws => absurd hws (by simp [digit_not_ws hd])⟩
      have h' : 48 ≤ c.toNat ∧ c.toNat ≤ 57 := by simpa [isDigit] using hd
      simp only [isCtrl, decide_eq_false_iff_not]
      omega
  · intro s hg c hc
    exact renderStr_good_chars (by simpa [goodJson] using hg) c (by simpa [render] using hc)
  · intro xs ih hg c hc
    have hc' : c ∈ '[' :: (renderElems xs ++ [']']) := by simpa [render] using hc
    rcases List.mem_cons.mp hc' with rfl | hc2
    · exact ⟨by decide, by decide⟩
    rcases List.mem_append.mp hc2 with hc3 | hc3
    · rcases mem_renderElems hc3 with rfl | ⟨x, hx, hcx⟩
      · exact ⟨by decide, by decide⟩
      · exact ih x hx (goodList_mem (by simpa [goodJson] using hg) hx) c hcx
    · have : c = ']' := by simpa using hc3
      exact this ▸ ⟨by decide, by decide⟩
  · intro kvs ih hg c hc
    have hc' : c ∈ '{' :: (renderFields kvs ++ ['}']) := by simpa [render] using hc
    rcases List.mem_cons.mp hc' with rfl | hc2
    · exact ⟨by decide, by decide⟩
    rcases List.mem_append.mp hc2 with hc3 | hc3
    · rcases mem_renderFields hc3 with rfl | rfl | ⟨kv, hkv, hck⟩
      · exact ⟨by decide, by decide⟩
      · exact ⟨by decide, by decide⟩
      · have h2 := goodFields_mem (by simpa [goodJson] using hg) hkv
        rcases hck with hck | hck
        · exact renderStr_good_chars h2.1 c hck
        · exact ih kv hkv h2.2 c hck
    · have : c = '}' := by simpa using hc3
      exact this ▸ ⟨by decide, by decide⟩

theorem skipWs_cons_not_ws {c : Char} {t : List Char} (h : isJsonWs c = false) :
    skipWs (c :: t) = c :: t := by
  simp [skipWs, List.dropWhile, h]

theorem stopper_sepElems (xs : List JsonValue) (T : List Char) :
    stopper (sepElems xs ++ (']' :: T)) := by
  cases xs with
  | nil => exact Or.inr ⟨']', T, rfl, Or.inr (Or.inl rfl)⟩
  | cons y r =>
    exact Or.inr ⟨',', renderElems (y :: r) ++ (']' :: T), rfl, Or.inl rfl⟩

theorem stopper_sepFields (kvs : List (List Char × JsonValue)) (T : List Char) :
    stopper (sepFields kvs ++ ('}' :: T)) := by
  cases kvs with
  | nil => exact Or.inr ⟨'}', T, rfl, Or.inr (Or.inr rfl)⟩
  | cons p r =>
    exact Or.inr ⟨',', renderFields (p :: r) ++ ('}' :: T), rfl, Or.inl rfl⟩

theorem pairRender_head (kv : List Char × JsonValue) : ∃ t, pairRender kv = '"' :: t :=
  ⟨((kv.1.map escChar).flatten ++ ['"']) ++ (':' :: render kv.2), rfl⟩

set_option maxHeartbeats 2000000 in
theorem parse_render : ∀ fuel : Nat,
    (∀ v T, goodJson v = true → stopper T → (render v).length < fuel →
      parseValue fuel (render v ++ T) = some (v, T)) ∧
    (∀ xs T, goodList xs = true → (renderElems xs).length + 1 < fuel →
      parseArrBody fuel (renderElems xs ++ (']' :: T)) = some (xs, T)) ∧
    (∀ v xs T, goodList xs = true → (sepElems xs).length + 1 < fuel →
      parseArrRest fuel v (sepElems xs ++ (']' :: T)) = some (v :: xs, T)) ∧
    (∀ kvs T, goodFields kvs = true → (renderFields kvs).length + 1 < fuel →
      parseObjBody fuel (renderFields kvs ++ ('}' :: T)) = some (kvs, T)) ∧
    (∀ kv kvs T, goodFields kvs = true → (sepFields kvs).length + 1 < fuel →
      parseObjRest fuel kv (sepFields kvs ++ ('}' :: T)) = some (kv :: kvs, T)) ∧
    (∀ kv T, goodStr kv.1 = true → goodJson kv.2 = true → stopper T →
      (pairRender kv).length < fuel →
      parsePair fuel (pairRender kv ++ T) = some (kv, T)) := by
  intro fuel
  induction fuel with
  | zero =>
    refine ⟨?_, ?_, ?_, ?_, ?_, ?_⟩
    · intro v T _ _ h; exact absurd h (Nat.not_lt_zero _)
    · intro xs T _ h; exact absurd h (Nat.not_lt_zero _)
    · intro v xs T _ h; exact absurd h (Nat.not_lt_zero _)
    · intro kvs T _ h; exact absurd h (Nat.not_lt_zero _)
    · intro kv kvs T _ h; exact absurd h (Nat.not_lt_zero _)
    · intro kv T _ _ _ h; exact absurd h (Nat.not_lt_zero _)
  | succ f ih =>
    obtain ⟨ihA, ihB, ihC, ihD, ihE, ihF⟩ := ih
    refine ⟨?_, ?_, ?_, ?_, ?_, ?_⟩
    · -- parseValue on a rendered value
      intro v T hg hT hlen
      cases v with
      | null => rfl
      | bool b => cases b <;> rfl
      | num n =>
        obtain ⟨d, t0, hdt, hdprop⟩ :
            ∃ d t0, intToChars n = d :: t0 ∧ (d = '-' ∨ isDigit d = true) := by
          by_cases hn : n < 0
          · exact ⟨'-', natToChars n.natAbs, by simp [intToChars, hn], Or.inl rfl⟩
          · obtain ⟨d, t, hds, hdig⟩ := natToChars_head_digit n.natAbs
            exact ⟨d, t, by simp [intToChars, hn, hds], Or.inr hdig⟩
        have hdws : isJsonWs d = false := by
          rcases hdprop with rfl | hd
          · decide
          · exact digit_not_jsonws hd
        have hdne : d ≠ '{' ∧ d ≠ '[' ∧ d ≠ '"' ∧ d ≠ 't' ∧ d ≠ 'f' ∧ d ≠ 'n' := by
          rcases hdprop with rfl | hd
          · exact ⟨by decide, by decide, by decide, by decide, by decide, by decide⟩
          · exact ⟨fun he => absurd (he ▸ hd) (by decide),
              fun he => absurd (he ▸ hd) (by decide), fun he => absurd (he ▸ hd) (by decide),
              fun he => absurd (he ▸ hd) (by decide), fun he => absurd (he ▸ hd) (by decide),
              fun he => absurd (he ▸ hd) (by decide)⟩
        rw [show render (.num n) ++ T = d :: (t0 ++ T) from by
          simp only [render]
          rw [hdt]
          simp]
        simp only [parseValue, skipWs_cons_not_ws hdws]
        split
        · rename_i rest heq
          exfalso
          have hh : d = '{' := by injection heq
          exact hdne.1 hh
        · rename_i rest heq
          exfalso
          have hh : d = '[' := by injection heq
          exact hdne.2.1 hh
        · rename_i rest heq
          exfalso
          have hh : d = '"' := by injection heq
          exact hdne.2.2.1 hh
        · rename_i rest heq
          exfalso
          have hh : d = 't' := by injection heq
          exact hdne.2.2.2.1 hh
        · rename_i rest heq
          exfalso
          have hh : d = 'f' := by injection heq
          exact hdne.2.2.2.2.1 hh
        · rename_i rest heq
          exfalso
          have hh : d = 'n' := by injection heq
          exact hdne.2.2.2.2.2 hh
        · rw [show d :: (t0 ++ T) = intToChars n ++ T from by rw [hdt]; simp]
          exact parseNumber_intToChars n T hT
      | str st =>
        have hctrl : ∀ c ∈ st, isCtrl c = false := fun c hc =>
          (goodStr_mem (by simpa [goodJson] using hg) c hc).1
        have hsb := parseStrBody_render st T hctrl
        rw [show render (.str st) ++ T =
            '"' :: ((st.map escChar).flatten ++ ('"' :: T)) from by
          simp [render, renderStr]]
        simp only [parseValue,
          skipWs_cons_not_ws (show isJsonWs ('"') = false from by decide), hsb]
        rfl
      | arr xs =>
        have hB := ihB xs T (by simpa [goodJson] using hg) (by
          have hlen2 : (render (.arr xs)).length = (renderElems xs).length + 2 := by
            simp only [render, List.length_cons, List.length_append,
              List.length_singleton, List.length_nil]
          omega)
        rw [show render (.arr xs) ++ T = '[' :: (renderElems xs ++ (']' :: T)) from by
          simp [render]]
        simp only [parseValue,
          skipWs_cons_not_ws (show isJsonWs ('[') = false from by decide), hB]
        rfl
      | obj kvs =>
        have hD := ihD kvs T (by simpa [goodJson] using hg) (by
          have hlen2 : (render (.obj kvs)).length = (renderFields kvs).length + 2 := by
            simp only [render, List.length_cons, List.length_append,
              List.length_singleton, List.length_nil]
          omega)
        rw [show render (.obj kvs) ++ T = '{' :: (renderFields kvs ++ ('}' :: T)) from by
          simp [render]]
        simp only [parseValue,
          skipWs_cons_not_ws (show isJsonWs ('{') = false from by decide), hD]
        rfl
    · -- parseArrBody on rendered elements
      intro xs T hg hlen
      cases xs with
      | nil => rfl
      | cons x r =>
        have hg' : goodJson x = true ∧ goodList r = true := by
          rw [goodList, Bool.and_eq_true] at hg
          exact hg
        obtain ⟨c, t0, hct, hws, hne1, hne2, hne3, hne4, hne5⟩ := render_head x
        have hx1 : 0 < (render x).length := List.length_pos.mpr (render_ne_nil x)
        have hlen2 : (renderElems (x :: r)).length =
            (render x).length + (sepElems r).length := by
          rw [renderElems_cons_eq]
          simp
        rw [renderElems_cons_eq, List.append_assoc, hct]
        simp only [List.cons_append]
        simp only [parseArrBody, skipWs_cons_not_ws hws]
        split
        · rename_i rest heq
          exfalso
          have hh : c = ']' := by injection heq
          exact hne1 hh
        · rw [show c :: (t0 ++ (sepElems r ++ (']' :: T))) =
              render x ++ (sepElems r ++ (']' :: T)) from by rw [hct]; simp]
          rw [ihA x (sepElems r ++ (']' :: T)) hg'.1 (stopper_sepElems r T) (by omega)]
          simp only [Option.some_bind]
          exact ihC x r T hg'.2 (by omega)
    · -- parseArrRest on rendered remaining elements
      intro v xs T hg hlen
      cases xs with
      | nil => rfl
      | cons y r =>
        have hg' : goodJson y = true ∧ goodList r = true := by
          rw [goodList, Bool.and_eq_true] at hg
          exact hg
        have hy1 : 0 < (render y).length := List.length_pos.mpr (render_ne_nil y)
        have hlen2 : (sepElems (y :: r)).length =
            1 + (render y).length + (sepElems r).length := by
          rw [show sepElems (y :: r) = ',' :: renderElems (y :: r) from rfl,
            renderElems_cons_eq]
          simp only [List.length_cons, List.length_append]
          omega
        rw [show sepElems (y :: r) ++ (']' :: T) =
            ',' :: (renderElems (y :: r) ++ (']' :: T)) from by simp [sepElems]]
        simp only [parseArrRest,
          skipWs_cons_not_ws (show isJsonWs (',') = false from by decide)]
        rw [show renderElems (y :: r) ++ (']' :: T) =
            render y ++ (sepElems r ++ (']' :: T)) from by
          rw [renderElems_cons_eq]; simp]
        rw [ihA y (sepElems r ++ (']' :: T)) hg'.1 (stopper_sepElems r T) (by omega)]
        simp only [Option.some_bind]
        rw [ihC y r T hg'.2 (by omega)]
        rfl
    · -- parseObjBody on rendered members
      intro kvs T hg hlen
      cases kvs with
      | nil => rfl
      | cons kv r =>
        have hg' : (goodStr kv.1 = true ∧ goodJson kv.2 = true) ∧ goodFields r = true := by
          rw [goodFields, Bool.and_eq_true, Bool.and_eq_true] at hg
          exact hg
        have hkv := hg'.1
        obtain ⟨t0, ht0⟩ := pairRender_head kv
        have hp1 : 0 < (pairRender kv).length := by
          rw [ht0]
          simp
        have hlen2 : (renderFields (kv :: r)).length =
            (pairRender kv).length + (sepFields r).length := by
          rw [renderFields_cons_eq]
          simp
        rw [renderFields_cons_eq, List.append_assoc, ht0]
        simp only [List.cons_append]
        simp only [parseObjBody,
          skipWs_cons_not_ws (show isJsonWs ('"') = false from by decide)]
        rw [show ('"') :: (t0 ++ (sepFields r ++ ('}' :: T))) =
            pairRender kv ++ (sepFields r ++ ('}' :: T)) from by rw [ht0]; simp]
        split
        · rename_i rest heq
          exfalso
          rw [ht0] at heq
          simp only [List.cons_append] at heq
          have hh : ('"') = '}' := by injection heq
          exact absurd hh (by decide)
        · rw [ihF kv (sepFields r ++ ('}' :: T)) hkv.1 hkv.2 (stopper_sepFields r T)
            (by omega)]
          simp only [Option.some_bind]
          exact ihE kv r T hg'.2 (by omega)
    · -- parseObjRest on rendered remaining members
      intro kv kvs T hg hlen
      cases kvs with
      | nil => rfl
      | cons p r =>
        have hg' : (goodStr p.1 = true ∧ goodJson p.2 = true) ∧ goodFields r = true := by
          rw [goodFields, Bool.and_eq_true, Bool.and_eq_true] at hg
          exact hg
        have hp := hg'.1
        obtain ⟨t0, ht0⟩ := pairRender_head p
        have hp1 : 0 < (pairRender p).length := by
          rw [ht0]
          simp
        have hlen2 : (sepFields (p :: r)).length =
            1 + (pairRender p).length + (sepFields r).length := by
          rw [show sepFields (p :: r) = ',' :: renderFields (p :: r) from rfl,
            renderFields_cons_eq]
          simp only [List.length_cons, List.length_append]
          omega
        rw [show sepFields (p :: r) ++ ('}' :: T) =
            ',' :: (renderFields (p :: r) ++ ('}' :: T)) from by simp [sepFields]]
        simp only [parseObjRest,
          skipWs_cons_not_ws (show isJsonWs (',') = false from by decide)]
        rw [show renderFields (p :: r) ++ ('}' :: T) =
            pairRender p ++ (sepFields r ++ ('}' :: T)) from by
          rw [renderFields_cons_eq]; simp]
        rw [ihF p (sepFields r ++ ('}' :: T)) hp.1 hp.2 (stopper_sepFields r T)
          (by omega)]
        simp only [Option.some_bind]
        rw [ihE p r T hg'.2 (by omega)]
        rfl
    · -- parsePair on a rendered member
      intro kv T hk hv hT hlen
      obtain ⟨k, w⟩ := kv
      have hk' : goodStr k = true := hk
      have hv' : goodJson w = true := hv
      have hctrl : ∀ c ∈ k, isCtrl c = false := fun c hc => (goodStr_mem hk' c hc).1
      have hsb := parseStrBody_render k (':' :: (render w ++ T)) hctrl
      have hlen2 : (pairRender (k, w)).length =
          (renderStr k).length + 1 + (render w).length := by
        simp only [pairRender, List.length_append, List.length_cons]
        omega
      rw [show pairRender (k, w) ++ T =
          '"' :: ((k.map escChar).flatten ++ ('"' :: (':' :: (render w ++ T)))) from by
        simp [pairRender, renderStr]]
      simp only [parsePair,
        skipWs_cons_not_ws (show isJsonWs ('"') = false from by decide), hsb,
        Option.some_bind,
        skipWs_cons_not_ws (show isJsonWs (':') = false from by decide)]
      rw [ihA w T hv' hT (by omega)]
      rfl

theorem json_loads_render (v : JsonValue) (hg : goodJson v = true) :
    json_loads (render v) = some v := by
  have hA := (parse_render ((render v).length + 1)).1 v [] hg (Or.inl rfl)
    (Nat.lt_succ_self _)
  rw [List.append_nil] at hA
  unfold json_loads
  rw [hA]
  rfl

theorem parseValue_backtick (f : Nat) (t : List Char) :
    parseValue (f + 1) ('`' :: t) = none := rfl

theorem json_loads_backtick (t : List Char) : json_loads ('`' :: t) = none := by
  unfold json_loads
  rw [show (('`') :: t).length + 1 = t.length + 1 + 1 from by simp]
  rw [parseValue_backtick]

theorem dropWhile_append_all (p : Char → Bool) :
    ∀ A B : List Char, (∀ c ∈ A, p c = true) →
      (A ++ B).dropWhile p = B.dropWhile p := by
  intro A
  induction A with
  | nil => intro B _; rfl
  | cons a A' ih =>
    intro B h
    rw [List.cons_append, List.dropWhile_cons, if_pos (h a (by simp))]
    exact ih B (fun c hc => h c (by simp [hc]))

theorem wsToSpace_append (A B : List Char) :
    wsToSpace (A ++ B) = wsToSpace A ++ wsToSpace B := by
  simp [wsToSpace]

theorem wsToSpace_all_ws (w : List Char) (h : ∀ c ∈ w, isPyWs c = true) :
    wsToSpace w = List.replicate w.length ' ' := by
  induction w with
  | nil => rfl
  | cons c w' ih =>
    have ih' := ih (fun x hx => h x (by simp [hx]))
    simp only [wsToSpace] at ih'
    simp only [wsToSpace, List.map_cons, List.length_cons, List.replicate_succ]
    rw [if_pos (h c (by simp)), ih']

theorem squeeze_replicate_space : ∀ n : Nat,
    squeezeSpaces (List.replicate n ' ') = if n = 0 then [] else (' ') :: [] := by
  intro n
  induction n with
  | zero => rfl
  | succ m ih =>
    cases m with
    | zero => rfl
    | succ k =>
      rw [show List.replicate (k + 1 + 1) ' ' = ' ' :: ' ' :: List.replicate k ' ' from rfl]
      rw [show squeezeSpaces (' ' :: ' ' :: List.replicate k ' ') =
        squeezeSpaces (' ' :: List.replicate k ' ') from by simp [squeezeSpaces]]
      rw [show (' ') :: List.replicate k ' ' = List.replicate (k + 1) ' ' from rfl]
      rw [ih]
      simp

theorem spOf_squeeze (w : List Char) :
    squeezeSpaces (List.replicate w.length ' ') = spOf w := by
  rw [squeeze_replicate_space]
  cases w with
  | nil => rfl
  | cons c t => simp [spOf]

theorem squeezeSpaces_append : ∀ (A B : List Char),
    ¬(A.getLast? = some ' ' ∧ B.head? = some ' ') →
    squeezeSpaces (A ++ B) = squeezeSpaces A ++ squeezeSpaces B := by
  intro A
  induction A using squeezeSpaces.induct with
  | case1 => intro B _; rfl
  | case2 c =>
    intro B hbd
    cases B with
    | nil => simp [show squeezeSpaces ([] : List Char) = [] from rfl]
    | cons b B' =>
      have hne : ¬(c = ' ' ∧ b = ' ') := by
        intro hcb
        exact hbd ⟨by simp [hcb.1], by simp [hcb.2]⟩
      show squeezeSpaces (c :: b :: B') = squeezeSpaces ((c) :: []) ++ squeezeSpaces (b :: B')
      simp only [squeezeSpaces, if_neg hne]
      simp
  | case3 a b r hab ih =>
    intro B hbd
    have hbd' : ¬((b :: r).getLast? = some ' ' ∧ B.head? = some ' ') := by
      intro hq
      exact hbd ⟨by rw [List.getLast?_cons_cons]; exact hq.1, hq.2⟩
    show squeezeSpaces (a :: b :: (r ++ B)) = squeezeSpaces (a :: b :: r) ++ squeezeSpaces B
    rw [show squeezeSpaces (a :: b :: (r ++ B)) = squeezeSpaces (b :: (r ++ B)) from by
      simp only [squeezeSpaces, if_pos hab]]
    rw [show squeezeSpaces (a :: b :: r) = squeezeSpaces (b :: r) from by
      simp only [squeezeSpaces, if_pos hab]]
    exact ih B hbd'
  | case4 a b r hab ih =>
    intro B hbd
    have hbd' : ¬((b :: r).getLast? = some ' ' ∧ B.head? = some ' ') := by
      intro hq
      exact hbd ⟨by rw [List.getLast?_cons_cons]; exact hq.1, hq.2⟩
    show squeezeSpaces (a :: b :: (r ++ B)) = squeezeSpaces (a :: b :: r) ++ squeezeSpaces B
    rw [show squeezeSpaces (a :: b :: (r ++ B)) = a :: squeezeSpaces (b :: (r ++ B)) from by
      simp only [squeezeSpaces, if_neg hab]]
    rw [show squeezeSpaces (a :: b :: r) = a :: squeezeSpaces (b :: r) from by
      simp only [squeezeSpaces, if_neg hab]]
    rw [show squeezeSpaces (b :: (r ++ B)) = squeezeSpaces ((b :: r) ++ B) from rfl]
    rw [ih B hbd']
    rfl

theorem removeCtrl_append (A B : List Char) :
    removeCtrl (A ++ B) = removeCtrl A ++ removeCtrl B := by
  simp [removeCtrl]

theorem removeCtrl_spOf (w : List Char) : removeCtrl (spOf w) = spOf w := by
  unfold spOf
  split
  · rfl
  · rfl

theorem braceSpan_of_shape (A R B : List Char) (hA : ('{') ∉ A) (hB : ('}') ∉ B)
    (hR1 : ∃ t, R = '{' :: t) (hR2 : R.getLast? = some '}') (hlen : 2 ≤ R.length) :
    braceSpan (A ++ R ++ B) = some R := by
  obtain ⟨t, ht⟩ := hR1
  have hall : ∀ c ∈ A, decide (c ≠ '{') = true := by
    intro c hc
    simp only [decide_eq_true_eq]
    exact fun he => hA (he ▸ hc)
  have hallB : ∀ c ∈ B.reverse, decide (c ≠ '}') = true := by
    intro c hc
    simp only [decide_eq_true_eq]
    exact fun he => hB (he ▸ (List.mem_reverse.mp hc))
  have h1 : (A ++ R ++ B).dropWhile (fun c => c ≠ '{') = R ++ B := by
    rw [List.append_assoc, dropWhile_append_all _ A (R ++ B) hall, ht]
    simp [List.dropWhile_cons]
  have h2 : ((R ++ B).reverse).dropWhile (fun c => c ≠ '}') = R.reverse := by
    rw [List.reverse_append, dropWhile_append_all _ B.reverse R.reverse hallB]
    obtain ⟨u, hu⟩ : ∃ u, R.reverse = '}' :: u := by
      cases hre : R.reverse with
      | nil =>
        rw [ht] at hre
        simp at hre
      | cons x u =>
        have hx : R.getLast? = some x := by
          rw [← List.head?_reverse, hre]
          rfl
        rw [hR2] at hx
        have hx' : x = '}' := (Option.some.inj hx).symm
        subst hx'
        exact ⟨u, rfl⟩
    rw [hu]
    simp [List.dropWhile_cons]
  simp only [braceSpan]
  rw [h1, h2, List.reverse_reverse, if_neg (by omega)]

theorem clean_text_fenced (w2 w3 R : List Char)
    (hw2 : ∀ c ∈ w2, isPyWs c = true) (hw3 : ∀ c ∈ w3, isPyWs c = true)
    (hRw : ∀ c ∈ R, isPyWs c = true → c = ' ')
    (hRc : ∀ c ∈ R, isCtrl c = false)
    (hRn : noAdjSp R = true)
    (hRne : R ≠ [])
    (hRh : ∀ c, R.head? = some c → c ≠ ' ')
    (hRl : ∀ c, R.getLast? = some c → c ≠ ' ') :
    clean_text (fenceOpen ++ w2 ++ R ++ w3 ++ fenceClose) =
      fenceOpen ++ spOf w2 ++ R ++ spOf w3 ++ fenceClose := by
  have h1 : wsToSpace (fenceOpen ++ w2 ++ R ++ w3 ++ fenceClose) =
      fenceOpen ++ List.replicate w2.length ' ' ++ R ++
        List.replicate w3.length ' ' ++ fenceClose := by
    rw [wsToSpace_append, wsToSpace_append, wsToSpace_append, wsToSpace_append]
    rw [wsToSpace_all_ws w2 hw2, wsToSpace_all_ws w3 hw3, wsToSpace_fix R hRw]
    rw [show wsToSpace fenceOpen = fenceOpen from rfl,
      show wsToSpace fenceClose = fenceClose from rfl]
  have h2 : squeezeSpaces (fenceOpen ++ List.replicate w2.length ' ' ++ R ++
      List.replicate w3.length ' ' ++ fenceClose) =
      fenceOpen ++ spOf w2 ++ R ++ spOf w3 ++ fenceClose := by
    rw [squeezeSpaces_append _ fenceClose ?b4]
    rw [squeezeSpaces_append _ (List.replicate w3.length ' ') ?b3]
    rw [squeezeSpaces_append _ R ?b2]
    rw [squeezeSpaces_append fenceOpen _ ?b1]
    rw [show squeezeSpaces fenceOpen = fenceOpen from rfl,
      show squeezeSpaces fenceClose = fenceClose from rfl,
      squeezeSpaces_fix R hRn, spOf_squeeze w2, spOf_squeeze w3]
    case b1 =>
      intro hq
      exact absurd hq.1 (by decide)
    case b2 =>
      intro hq
      exact hRh ' ' hq.2 rfl
    case b3 =>
      intro hq
      have h1' := hq.1
      rw [List.getLast?_append_of_ne_nil _ hRne] at h1'
      exact hRl ' ' h1' rfl
    case b4 =>
      intro hq
      exact absurd hq.2 (by decide)
  have h3 : removeCtrl (fenceOpen ++ spOf w2 ++ R ++ spOf w3 ++ fenceClose) =
      fenceOpen ++ spOf w2 ++ R ++ spOf w3 ++ fenceClose := by
    rw [removeCtrl_append, removeCtrl_append, removeCtrl_append, removeCtrl_append]
    rw [removeCtrl_fix R hRc, removeCtrl_spOf, removeCtrl_spOf,
      show removeCtrl fenceOpen = fenceOpen from rfl,
      show removeCtrl fenceClose = fenceClose from rfl]
  have h4 : pyStrip (fenceOpen ++ spOf w2 ++ R ++ spOf w3 ++ fenceClose) =
      fenceOpen ++ spOf w2 ++ R ++ spOf w3 ++ fenceClose := by
    apply pyStrip_fix
    · intro c hc
      have hh : (fenceOpen ++ spOf w2 ++ R ++ spOf w3 ++ fenceClose).head? = some '`' := rfl
      rw [hh] at hc
      rw [← Option.some.inj hc]
      decide
    · intro c hc
      have hl : (fenceOpen ++ spOf w2 ++ R ++ spOf w3 ++ fenceClose).getLast? =
          some '`' := by
        rw [List.getLast?_append_of_ne_nil _ (show fenceClose ≠ [] from by decide)]
        rfl
      rw [hl] at hc
      rw [← Option.some.inj hc]
      decide
  unfold clean_text collapseWs
  rw [h1, h2, h3, h4]

/-- C3 (amended): for a JSON object whose strings contain no control
characters, no whitespace other than plain spaces, and no two adjacent
spaces (`goodJson`), wrapping its canonical rendering in ```json fences
with surrounding whitespace lets `safe_json` recover exactly the value
that direct parsing after fence removal yields.  (The amendment restricts
the strings because `safe_json` runs `clean_text` first, which collapses
whitespace inside string literals — see the counterexample.) -/
theorem fenced_json_roundtrip (kvs : List (List Char × JsonValue)) (w2 w3 : List Char)
    (hg : goodJson (JsonValue.obj kvs) = true)
    (hw2 : ∀ c ∈ w2, isPyWs c = true) (hw3 : ∀ c ∈ w3, isPyWs c = true) :
    safe_json (fenceOpen ++ w2 ++ render (JsonValue.obj kvs) ++ w3 ++ fenceClose) =
      some (JsonValue.obj kvs) ∧
    json_loads (render (JsonValue.obj kvs)) = some (JsonValue.obj kvs) := by
  have hchars := render_good_chars (JsonValue.obj kvs) hg
  have hnoadj := render_noAdjSp (JsonValue.obj kvs) hg
  have hRne := render_ne_nil (JsonValue.obj kvs)
  have hhead : render (JsonValue.obj kvs) =
      '{' :: (renderFields kvs ++ ('}' :: [])) := rfl
  have hlast : (render (JsonValue.obj kvs)).getLast? = some '}' := by
    rw [show render (JsonValue.obj kvs) =
      ('{' :: renderFields kvs) ++ ('}' :: []) from by simp [render]]
    rw [List.getLast?_append_of_ne_nil _ (by simp)]
    rfl
  have hRh : ∀ c, (render (JsonValue.obj kvs)).head? = some c → c ≠ ' ' := by
    intro c hc
    rw [hhead] at hc
    simp only [List.head?_cons] at hc
    rw [← Option.some.inj hc]
    decide
  have hRl : ∀ c, (render (JsonValue.obj kvs)).getLast? = some c → c ≠ ' ' := by
    intro c hc
    rw [hlast] at hc
    rw [← Option.some.inj hc]
    decide
  have hclean := clean_text_fenced w2 w3 (render (JsonValue.obj kvs)) hw2 hw3
    (fun c hc => (hchars c hc).2) (fun c hc => (hchars c hc).1) hnoadj hRne hRh hRl
  have hne : fenceOpen ++ w2 ++ render (JsonValue.obj kvs) ++ w3 ++ fenceClose ≠ [] := by
    intro h
    have hl' := congrArg List.length h
    simp only [List.length_append, List.length_nil] at hl'
    have h7 : fenceOpen.length = 7 := rfl
    omega
  have hX : fenceOpen ++ spOf w2 ++ render (JsonValue.obj kvs) ++ spOf w3 ++ fenceClose =
      '`' :: (('`' :: '`' :: 'j' :: 's' :: 'o' :: 'n' :: []) ++ spOf w2 ++
        render (JsonValue.obj kvs) ++ spOf w3 ++ fenceClose) := rfl
  have hjl1 : json_loads (fenceOpen ++ spOf w2 ++ render (JsonValue.obj kvs) ++
      spOf w3 ++ fenceClose) = none := by
    rw [hX]
    exact json_loads_backtick _
  have hA' : ('{') ∉ fenceOpen ++ spOf w2 := by
    intro hmem
    rcases List.mem_append.mp hmem with h | h
    · exact absurd h (by decide)
    · by_cases hw : w2 = []
      · simp [spOf, hw] at h
      · simp [spOf, hw] at h
  have hB' : ('}') ∉ spOf w3 ++ fenceClose := by
    intro hmem
    rcases List.mem_append.mp hmem with h | h
    · by_cases hw : w3 = []
      · simp [spOf, hw] at h
      · simp [spOf, hw] at h
    · exact absurd h (by decide)
  have hbs : braceSpan (fenceOpen ++ spOf w2 ++ render (JsonValue.obj kvs) ++
      spOf w3 ++ fenceClose) = some (render (JsonValue.obj kvs)) := by
    rw [List.append_assoc
      (fenceOpen ++ spOf w2 ++ render (JsonValue.obj kvs)) (spOf w3) fenceClose]
    exact braceSpan_of_shape (fenceOpen ++ spOf w2) (render (JsonValue.obj kvs))
      (spOf w3 ++ fenceClose) hA' hB' ⟨_, hhead⟩ hlast
      (by rw [hhead]
          simp only [List.length_cons, List.length_append, List.length_nil]
          omega)
  have hdirect := json_loads_render (JsonValue.obj kvs) hg
  refine ⟨?_, hdirect⟩
  simp only [safe_json]
  rw [if_neg hne]
  rw [hclean, hjl1, hbs]
  exact hdirect

/-- C3 counterexample: the unamended claim fails because `safe_json`
normalizes with `clean_text` before parsing, which collapses whitespace
runs inside JSON string literals.  For the fenced text
(backtick)(backtick)(backtick)json \x7b"a": "x  y"\x7d (backtick)×3, direct
parsing after fence removal yields the string "x  y" while `safe_json`
yields "x y". -/
theorem fenced_json_whitespace_cex :
    json_loads (("\x7b\"a\": \"x  y\"\x7d").toList) =
      some (.obj [(('a' :: []), .str ('x' :: ' ' :: ' ' :: 'y' :: []))]) ∧
    safe_json (("```json\n\x7b\"a\": \"x  y\"\x7d\n```").toList) =
      some (.obj [(('a' :: []), .str ('x' :: ' ' :: 'y' :: []))]) ∧
    ('x' :: ' ' :: ' ' :: 'y' :: [] : List Char) ≠ ('x' :: ' ' :: 'y' :: []) := by
  refine ⟨rfl, rfl, by decide⟩

/-- Witness: the amended C3 theorem applied to the concrete object
\x7b"a": 1\x7d wrapped in newline-separated fences. -/
theorem fenced_json_roundtrip_wit :
    goodJson (.obj [(('a' :: []), JsonValue.num 1)]) = true ∧
    (∀ c ∈ (('\n') :: [] : List Char), isPyWs c = true) ∧
    safe_json (fenceOpen ++ (('\n') :: []) ++
      render (.obj [(('a' :: []), JsonValue.num 1)]) ++
      (('\n') :: []) ++ fenceClose) = some (.obj [(('a' :: []), JsonValue.num 1)]) := by
  refine ⟨rfl, by decide, ?_⟩
  exact (fenced_json_roundtrip [(('a' :: []), JsonValue.num 1)] (('\n') :: [])
    (('\n') :: []) rfl (by decide) (by decide)).1


end VCoach
